import Mathlib

/-!
Verification development for the csv-catalog-comparer repository
(source file: compare_catalogs.py).

The source is shallowly embedded: Python strings are Lean strings
(lists of unicode code points under the hood), Python dicts are
insertion-ordered association lists with Python's update-in-place
semantics, and the csv module's reader is modelled as the explicit
character automaton of the default dialect (quote character is the
double quote, doubled quotes escape, non-strict mode, records may
continue across lines inside a quoted field, joined with a line feed).
Python's html.unescape is an external table-driven library function and
is abstracted as an explicit function parameter wherever the source
calls it; html.escape with its default arguments is the concrete chain
of five string replacements and is embedded as such.

The source file is stored in a latin-1/cp1252 mojibake encoding: the
section marker appears in the source as the two characters "Â§" and the
report arrow as the three characters "â†’".  The embedding uses these
literal characters exactly as they stand in the source text.
-/

set_option maxRecDepth 8192

namespace CatalogComparer

/-- The apostrophe character, written via its code point. -/
def squote : Char := Char.ofNat 39

/-- The double-quote character. -/
def dquote : Char := '"'

/-! ## Python string primitives on lists of characters -/

/-- Characters treated as whitespace by Python's parameterless str.strip
(the unicode whitespace set), given by code point. -/
def pyIsSpace (c : Char) : Bool :=
  [9, 10, 11, 12, 13, 28, 29, 30, 31, 32, 133, 160, 5760,
   8232, 8233, 8239, 8287, 12288].contains c.toNat ∨
  (8192 ≤ c.toNat ∧ c.toNat ≤ 8202)

/-- Python str.strip on a character list: drop whitespace from both ends. -/
def pyStripL (l : List Char) : List Char :=
  ((l.dropWhile pyIsSpace).reverse.dropWhile pyIsSpace).reverse

/-- Python str.strip. -/
def pyStrip (s : String) : String :=
  String.mk (pyStripL s.data)

/-- Python str.split with a single-character separator: every occurrence
separates, adjacent separators produce empty chunks, the empty string
splits to one empty chunk. -/
def splitCharL (sep : Char) : List Char → List (List Char)
  | [] => [[]]
  | c :: t =>
    if c = sep then [] :: splitCharL sep t
    else
      match splitCharL sep t with
      | [] => [[c]]
      | h :: r => (c :: h) :: r

/-- Worker for the multi-character split, structurally recursive on an
explicit fuel so that it computes inside the kernel; the fuel only
needs to cover the input length and the wrapper supplies exactly
that. -/
def splitSubGo (sep : List Char) : Nat → List Char → List (List Char)
  | _, [] => [[]]
  | 0, l => [l]
  | fuel + 1, c :: t =>
    if sep ≠ [] ∧ sep.isPrefixOf (c :: t) then
      [] :: splitSubGo sep fuel (List.drop (sep.length - 1) t)
    else
      match splitSubGo sep fuel t with
      | [] => [[c]]
      | h :: r => (c :: h) :: r

/-- Python str.split with a non-empty multi-character separator:
non-overlapping occurrences are found left to right.  An empty
separator is a ValueError in Python; the embedding returns the whole
input as one chunk in that unreachable case, and theorems that depend
on split behaviour assume the separator is non-empty. -/
def splitSubL (sep l : List Char) : List (List Char) :=
  splitSubGo sep l.length l

/-- Python str.split lifted to strings. -/
def pySplit (s sep : String) : List String :=
  (splitSubL sep.data s.data).map String.mk

/-- Worker for replace, structurally recursive on an explicit fuel so
that it computes inside the kernel; the fuel only needs to cover the
input length and the wrapper supplies exactly that. -/
def replaceGo (pat repl : List Char) : Nat → List Char → List Char
  | _, [] => []
  | 0, l => l
  | fuel + 1, c :: t =>
    if pat ≠ [] ∧ pat.isPrefixOf (c :: t) then
      repl ++ replaceGo pat repl fuel (List.drop (pat.length - 1) t)
    else
      c :: replaceGo pat repl fuel t

/-- Python str.replace: non-overlapping occurrences of the pattern are
replaced left to right.  A Python replace with an empty pattern
interleaves the replacement everywhere; the source never calls it that
way, and the embedding leaves the input unchanged for an empty pattern. -/
def replaceL (pat repl l : List Char) : List Char :=
  replaceGo pat repl l.length l

/-- Python str.replace lifted to strings. -/
def pyReplace (s pat repl : String) : String :=
  String.mk (replaceL pat.data repl.data s.data)

/-- The fuel argument of replaceGo is irrelevant once it covers the
input length. -/
theorem replaceGo_fuel_eq (pat repl : List Char) :
    ∀ (f1 : Nat) (l : List Char) (f2 : Nat), l.length ≤ f1 → l.length ≤ f2 →
      replaceGo pat repl f1 l = replaceGo pat repl f2 l := by
  intro f1
  induction f1 with
  | zero =>
    intro l f2 h1 h2
    have hl : l = [] := List.eq_nil_of_length_eq_zero (Nat.le_zero.mp h1)
    subst hl
    cases f2 <;> rfl
  | succ fuel ih =>
    intro l f2 h1 h2
    match l with
    | [] => cases f2 <;> rfl
    | c :: t =>
      match f2, h2 with
      | 0, h2 => exact absurd h2 (by simp)
      | g + 1, h2 =>
        by_cases hm : pat ≠ [] ∧ pat.isPrefixOf (c :: t)
        · simp only [replaceGo, if_pos hm]
          congr 1
          apply ih
          · simp only [List.length_drop]
            simp only [List.length_cons] at h1
            omega
          · simp only [List.length_drop]
            simp only [List.length_cons] at h2
            omega
        · simp only [replaceGo, if_neg hm]
          congr 1
          apply ih
          · simp only [List.length_cons] at h1
            omega
          · simp only [List.length_cons] at h2
            omega

theorem replaceL_nil (pat repl : List Char) : replaceL pat repl [] = [] := rfl

theorem replaceL_cons (pat repl : List Char) (c : Char) (t : List Char) :
    replaceL pat repl (c :: t) =
      if pat ≠ [] ∧ pat.isPrefixOf (c :: t) then
        repl ++ replaceL pat repl (List.drop (pat.length - 1) t)
      else c :: replaceL pat repl t := by
  show replaceGo pat repl (t.length + 1) (c :: t) = _
  by_cases hm : pat ≠ [] ∧ pat.isPrefixOf (c :: t)
  · simp only [replaceGo, if_pos hm]
    congr 1
    exact replaceGo_fuel_eq pat repl t.length _ _
      (by simp only [List.length_drop]; omega) (le_refl _)
  · simp only [replaceGo, if_neg hm]
    rfl

/-- The fuel argument of splitSubGo is irrelevant once it covers the
input length. -/
theorem splitSubGo_fuel_eq (sep : List Char) :
    ∀ (f1 : Nat) (l : List Char) (f2 : Nat), l.length ≤ f1 → l.length ≤ f2 →
      splitSubGo sep f1 l = splitSubGo sep f2 l := by
  intro f1
  induction f1 with
  | zero =>
    intro l f2 h1 h2
    have hl : l = [] := List.eq_nil_of_length_eq_zero (Nat.le_zero.mp h1)
    subst hl
    cases f2 <;> rfl
  | succ fuel ih =>
    intro l f2 h1 h2
    match l with
    | [] => cases f2 <;> rfl
    | c :: t =>
      match f2, h2 with
      | 0, h2 => exact absurd h2 (by simp)
      | g + 1, h2 =>
        by_cases hm : sep ≠ [] ∧ sep.isPrefixOf (c :: t)
        · simp only [splitSubGo, if_pos hm]
          rw [ih (List.drop (sep.length - 1) t) g ?_ ?_]
          · simp only [List.length_drop]
            simp only [List.length_cons] at h1
            omega
          · simp only [List.length_drop]
            simp only [List.length_cons] at h2
            omega
        · simp only [splitSubGo, if_neg hm]
          rw [ih t g ?_ ?_]
          · simp only [List.length_cons] at h1
            omega
          · simp only [List.length_cons] at h2
            omega

theorem splitSubL_nil (sep : List Char) : splitSubL sep [] = [[]] := rfl

theorem splitSubL_cons (sep : List Char) (c : Char) (t : List Char) :
    splitSubL sep (c :: t) =
      if sep ≠ [] ∧ sep.isPrefixOf (c :: t) then
        [] :: splitSubL sep (List.drop (sep.length - 1) t)
      else
        match splitSubL sep t with
        | [] => [[c]]
        | h :: r => (c :: h) :: r := by
  show splitSubGo sep (t.length + 1) (c :: t) = _
  by_cases hm : sep ≠ [] ∧ sep.isPrefixOf (c :: t)
  · simp only [splitSubGo, if_pos hm]
    congr 1
    exact splitSubGo_fuel_eq sep t.length _ _
      (by simp only [List.length_drop]; omega) (le_refl _)
  · simp only [splitSubGo, if_neg hm]
    rfl

/-- Characters at which Python str.splitlines breaks lines, by code
point: line feed, carriage return, vertical tab, form feed, the three
information separators, next line, line separator, paragraph separator. -/
def isLineBreak (c : Char) : Bool :=
  [10, 13, 11, 12, 28, 29, 30, 133, 8232, 8233].contains c.toNat

/-- Worker for splitlines: accumulates the current line reversed; a
carriage return followed by a line feed counts as a single break; a
trailing break does not open a final empty line. -/
def splitlinesGo (cur : List Char) : List Char → List (List Char)
  | [] => [cur.reverse]
  | '\r' :: '\n' :: t =>
    cur.reverse :: (if t = [] then [] else splitlinesGo [] t)
  | c :: t =>
    if isLineBreak c then
      cur.reverse :: (if t = [] then [] else splitlinesGo [] t)
    else
      splitlinesGo (c :: cur) t

/-- Python str.splitlines: the empty string yields no lines. -/
def pySplitlinesL (l : List Char) : List (List Char) :=
  match l with
  | [] => []
  | l => splitlinesGo [] l

/-- Python str.splitlines lifted to strings. -/
def pySplitlines (s : String) : List String :=
  (pySplitlinesL s.data).map String.mk

/-! ## Python dictionaries as insertion-ordered association lists -/

/-- A Python dict with string keys: an association list whose keys are
unique (maintained by the insert operation) and kept in insertion
order. -/
abbrev PyDict (α : Type) : Type := List (String × α)

namespace PyDict

/-- Lookup: the value of the first binding with the given key. -/
def get? {α : Type} (d : PyDict α) (k : String) : Option α :=
  match d with
  | [] => none
  | (k', v) :: t => if k' = k then some v else get? t k

/-- Lookup with a default, Python's d.get(k, v0). -/
def getD {α : Type} (d : PyDict α) (k : String) (v₀ : α) : α :=
  (d.get? k).getD v₀

/-- Python's k in d. -/
def contains {α : Type} (d : PyDict α) (k : String) : Bool :=
  (d.get? k).isSome

/-- Python's d[k] = v: an existing binding keeps its position and takes
the new value, a new key is appended at the end. -/
def insert {α : Type} (d : PyDict α) (k : String) (v : α) : PyDict α :=
  match d with
  | [] => [(k, v)]
  | (k', v') :: t => if k' = k then (k', v) :: t else (k', v') :: insert t k v

/-- Update the value of an existing binding in place (used to model
mutation of a value stored in a Python dict). -/
def modify {α : Type} (d : PyDict α) (k : String) (f : α → α) : PyDict α :=
  match d with
  | [] => []
  | (k', v') :: t => if k' = k then (k', f v') :: t else (k', v') :: modify t k f

/-- The keys in order. -/
def keys {α : Type} (d : PyDict α) : List String :=
  d.map Prod.fst

end PyDict

/-! ## Placeholders (source lines 8-10) -/

def PLACEHOLDER_COMMA : String := "<<<COMMA>>>"

def PLACEHOLDER_NEWLINE : String := "<<<NEWLINE>>>"

def PLACEHOLDER_SECTION : String := "<<<SECTION>>>"

/-- The two-character section-marker sequence as it appears literally in
the source text. -/
def SECTION_MARKER : String := "Â§"

/-! ## Shared helper: conditional removal of one layer of quotes

The source repeats this pattern at lines 55-56 (inside load_csv) and
lines 90-91 (inside parse_additional_attributes): if the value starts
and ends with a double quote, or starts and ends with an apostrophe,
drop the first and last character. -/

/-- Python: if (val.startswith(q) and val.endswith(q)) for q among the
two quote characters, then val[1:-1].  On a one-character quote string
both tests succeed and the result is empty, exactly as in Python. -/
def stripOuterQuotesL (l : List Char) : List Char :=
  if (l.head? = some dquote ∧ l.getLast? = some dquote) ∨
     (l.head? = some squote ∧ l.getLast? = some squote) then
    (l.drop 1).dropLast
  else l

/-! ## Free-text protection inside load_csv (source lines 33-61) -/

/-- The placeholder substitution of source lines 57-59: replace comma,
line feed and carriage return (both to the newline placeholder), and
the section-marker sequence, in that order. -/
def protectL (l : List Char) : List Char :=
  replaceL SECTION_MARKER.data PLACEHOLDER_SECTION.data
    (replaceL ['\r'] PLACEHOLDER_NEWLINE.data
      (replaceL ['\n'] PLACEHOLDER_NEWLINE.data
        (replaceL [','] PLACEHOLDER_COMMA.data l)))

/-- The inverse substitution of source lines 70-73: placeholders back to
comma, line feed and section marker. -/
def restoreSpecialL (l : List Char) : List Char :=
  replaceL PLACEHOLDER_SECTION.data SECTION_MARKER.data
    (replaceL PLACEHOLDER_NEWLINE.data ['\n']
      (replaceL PLACEHOLDER_COMMA.data [','] l))

/-- The character scan of source lines 34-51: split one line at
delimiters that are outside quotes.  Quote state opens at a double
quote or apostrophe and closes only at the same character; every
character including the quotes themselves is appended to the current
part.  The Python variable quote_char starts as an empty string that
never compares equal to a character and is only consulted after a quote
has opened; its initial value is immaterial and is the double quote
here. -/
def qsGo (delim : Char) (parts : List (List Char)) (cur : List Char)
    (inQ : Bool) (qc : Char) : List Char → List (List Char)
  | [] => parts ++ [cur]
  | c :: t =>
    if c = dquote ∨ c = squote then
      if inQ = false then qsGo delim parts (cur ++ [c]) true c t
      else if qc = c then qsGo delim parts (cur ++ [c]) false qc t
      else qsGo delim parts (cur ++ [c]) true qc t
    else if c = delim ∧ inQ = false then qsGo delim (parts ++ [cur]) [] inQ qc t
    else qsGo delim parts (cur ++ [c]) inQ qc t

/-- The full quote-aware split of one line. -/
def quoteSplitL (delim : Char) (line : List Char) : List (List Char) :=
  qsGo delim [] [] false dquote line

/-- The per-line transformation replace_special_fields of source lines
33-61: quote-aware split, then if the special index is in range, strip
one layer of quotes from that part and protect it, then rejoin with the
delimiter. -/
def replaceSpecialFieldsL (delim : Char) (specialIdx : Int) (line : List Char) : List Char :=
  let parts := quoteSplitL delim line
  let parts' :=
    if 0 ≤ specialIdx ∧ specialIdx < (parts.length : Int) then
      parts.set specialIdx.toNat (protectL (stripOuterQuotesL (parts.getD specialIdx.toNat [])))
    else parts
  List.intercalate [delim] parts'

/-! ## The csv module's reader (default dialect)

Python's csv.reader with the default dialect: quote character is the
double quote, doubled quotes escape a quote inside a quoted field,
non-strict mode lets text follow a closing quote, and a field that does
not start with a quote keeps interior quotes literally.  The reader
consumes one line per iteration; since load_csv hands it lines from
splitlines, the lines carry no terminators, so the end of a line while
inside a quoted field continues the record on the next line with
nothing joined in between (the embedded line break is lost), the end of
a line in any other state ends the record (an empty record for a blank
line, which DictReader skips), and end of input inside a still-open
quoted field emits the pending record.  Line-break characters cannot
occur inside the lines themselves (splitlines removed them); the
line-feed cases of the step function mirror the reader's end-of-line
handling for robustness but are unreachable from load_csv. -/

inductive CsvState where
  | startRecord
  | startField
  | inField
  | inQuoted
  | quoteInQuoted
deriving DecidableEq

structure CsvAcc where
  rows : List (List String)
  fields : List String
  cur : List Char
  state : CsvState
deriving DecidableEq

/-- One character of the csv automaton. -/
def csvStep (delim : Char) (a : CsvAcc) (c : Char) : CsvAcc :=
  match a.state with
  | .startRecord =>
    if c = '\n' then { a with rows := a.rows ++ [[]] }
    else if c = dquote then { a with state := .inQuoted }
    else if c = delim then { a with fields := a.fields ++ [""], state := .startField }
    else { a with cur := [c], state := .inField }
  | .startField =>
    if c = '\n' then
      { rows := a.rows ++ [a.fields ++ [""]], fields := [], cur := [], state := .startRecord }
    else if c = dquote then { a with state := .inQuoted }
    else if c = delim then { a with fields := a.fields ++ [""] }
    else { a with cur := [c], state := .inField }
  | .inField =>
    if c = '\n' then
      { rows := a.rows ++ [a.fields ++ [String.mk a.cur]], fields := [], cur := [],
        state := .startRecord }
    else if c = delim then
      { a with fields := a.fields ++ [String.mk a.cur], cur := [], state := .startField }
    else { a with cur := a.cur ++ [c] }
  | .inQuoted =>
    if c = dquote then { a with state := .quoteInQuoted }
    else { a with cur := a.cur ++ [c] }
  | .quoteInQuoted =>
    if c = dquote then { a with cur := a.cur ++ [dquote], state := .inQuoted }
    else if c = delim then
      { a with fields := a.fields ++ [String.mk a.cur], cur := [], state := .startField }
    else if c = '\n' then
      { rows := a.rows ++ [a.fields ++ [String.mk a.cur]], fields := [], cur := [],
        state := .startRecord }
    else { a with cur := a.cur ++ [c], state := .inField }

/-- End of one line: a record still inside a quoted field continues on
the next line with nothing added, any other state ends the record (a
blank line gives the empty record). -/
def csvEndLine (a : CsvAcc) : CsvAcc :=
  match a.state with
  | .inQuoted => a
  | .startRecord => { a with rows := a.rows ++ [[]] }
  | .startField => ⟨a.rows ++ [a.fields ++ [""]], [], [], .startRecord⟩
  | .inField => ⟨a.rows ++ [a.fields ++ [String.mk a.cur]], [], [], .startRecord⟩
  | .quoteInQuoted => ⟨a.rows ++ [a.fields ++ [String.mk a.cur]], [], [], .startRecord⟩

/-- End of input: a record left open inside a quoted field is emitted. -/
def csvFinish (a : CsvAcc) : List (List String) :=
  match a.state with
  | .inQuoted => a.rows ++ [a.fields ++ [String.mk a.cur]]
  | _ => a.rows

/-- The initial automaton state. -/
def csvInit : CsvAcc := ⟨[], [], [], .startRecord⟩

/-- All records produced by csv.reader over a list of lines. -/
def csvRows (delim : Char) (lines : List String) : List (List String) :=
  csvFinish (lines.foldl (fun a line => csvEndLine (line.data.foldl (csvStep delim) a)) csvInit)

/-! ## csv.DictReader and load_csv (source lines 18-75) -/

/-- One row as produced by csv.DictReader: the dict maps each field name
to an optional string (None pads a short row, Python's restval), and
rest holds the overflow values of a long row (Python stores them under
the restkey None, a key no string field name can collide with; it is
kept apart here). -/
structure LRecord where
  dict : PyDict (Option String)
  rest : List String
deriving DecidableEq

/-- DictReader's construction of one row dict from the field-name row
and a data row: names are zipped with the values, a short row is padded
with None, surplus values go to rest, duplicate field names overwrite
earlier values as in a Python dict built by successive assignment. -/
def mkLRecord (fieldnames row : List String) : LRecord :=
  let lf := fieldnames.length
  let lr := row.length
  let padded := row.map some ++ List.replicate (lf - lr) (none : Option String)
  { dict := (fieldnames.zip padded).foldl (fun d p => PyDict.insert d p.1 p.2) [],
    rest := row.drop lf }

/-- csv.DictReader over a list of lines: the first record gives the
field names, blank records are skipped, every other record becomes a
row dict. -/
def dictReaderRows (delim : Char) (lines : List String) : List LRecord :=
  match csvRows delim lines with
  | [] => []
  | fieldnames :: rest => (rest.filter (· ≠ [])).map (mkLRecord fieldnames)

/-- load_csv of source lines 18-75, taking the already-read file text:
split into lines, locate the special column in the naive
delimiter-split of the header, protect the special field of every data
line, parse with DictReader, drop rows with a falsy key value, restore
the placeholders in a truthy special value, and store under the
stripped key (later rows overwrite earlier ones). -/
def load_csv (content : String) (delimiter : Char) (special_field key_field : String) :
    PyDict LRecord :=
  match pySplitlines content with
  | [] => []
  | header :: tailLines =>
    let headers := (splitCharL delimiter header.data).map String.mk
    let special_idx : Int :=
      match headers.findIdx? (· = special_field) with
      | some i => (i : Int)
      | none => -1
    let processed := header ::
      tailLines.map (fun line => String.mk (replaceSpecialFieldsL delimiter special_idx line.data))
    let rows := dictReaderRows delimiter processed
    rows.foldl (fun data row =>
      match PyDict.get? row.dict key_field with
      | none => data
      | some none => data
      | some (some k) =>
        if k = "" then data
        else
          let row' :=
            match PyDict.get? row.dict special_field with
            | some (some v) =>
              if v = "" then row
              else { row with
                     dict := PyDict.insert row.dict special_field
                       (some (String.mk (restoreSpecialL v.data))) }
            | _ => row
          PyDict.insert data (pyStrip k) row') []

/-! ## parse_additional_attributes (source lines 78-95) -/

/-- Split a character list at the first occurrence of a character,
Python's s.split(c, 1) when c occurs. -/
def splitFirstL (sep : Char) : List Char → List Char × List Char
  | [] => ([], [])
  | c :: t =>
    if c = sep then ([], t)
    else
      let p := splitFirstL sep t
      (c :: p.1, p.2)

/-- parse_additional_attributes of source lines 78-95.  The unescape
parameter abstracts Python's html.unescape, an external table-driven
library function. -/
def parse_additional_attributes (unescape : String → String)
    (attr_string attr_separator : String) : PyDict String :=
  if attr_string = "" then []
  else
    (pySplit attr_string attr_separator).foldl (fun attributes pair =>
      if pair.data.contains '=' then
        let p := splitFirstL '=' pair.data
        let key := pyStrip (String.mk p.1)
        let value := pyStrip (String.mk p.2)
        let value := unescape value
        let value := String.mk (stripOuterQuotesL value.data)
        PyDict.insert attributes key value
      else PyDict.insert attributes (pyStrip pair) "") []

/-! ## diff_additional_attributes (source lines 98-116) -/

/-- diff_additional_attributes of source lines 98-116: parse both sides,
then record every non-excluded staging sub-key whose value differs from
the production value (empty string when absent), then every
non-excluded production-only sub-key.  The exclusion set is a Python
set used only for membership, modelled as a list. -/
def diff_additional_attributes (unescape : String → String) (stg_val prod_val : String)
    (attr_separator : String) (exclude_attrs : List String) : PyDict (String × String) :=
  let stg_attrs := parse_additional_attributes unescape stg_val attr_separator
  let prod_attrs := parse_additional_attributes unescape prod_val attr_separator
  let diffs := stg_attrs.foldl (fun diffs p =>
    if exclude_attrs.contains p.1 then diffs
    else
      let prod_value := PyDict.getD prod_attrs p.1 ""
      if prod_value ≠ p.2 then PyDict.insert diffs p.1 (p.2, prod_value) else diffs) []
  prod_attrs.foldl (fun diffs p =>
    if exclude_attrs.contains p.1 then diffs
    else if ¬ PyDict.contains stg_attrs p.1 then PyDict.insert diffs p.1 ("", p.2) else diffs) diffs

/-! ## compare_catalogs (source lines 119-173) -/

/-- A record of a catalog as consumed by compare_catalogs: field name to
optional value (None possible for padded rows). -/
abbrev Row := PyDict (Option String)

/-- A catalog: key to record. -/
abbrev Catalog := PyDict Row

/-- One diff entry.  In the source each entry is the Python dict literal
with keys key_field, "type", "field", "staging_value" and
"production_value"; it is modelled as a record with one slot per key,
which coincides with the dict whenever key_field is none of the four
literal tag names (the spec's Diff Entry data model posits a key slot
distinct from the tag slots). -/
structure DiffEntry where
  key : String
  type : String
  field : String
  staging_value : String
  production_value : String
deriving DecidableEq

/-- compare_catalogs of source lines 119-173.  Records are iterated in
insertion order; a staging key whose production record is absent or
falsy (the empty dict) yields one missing_in_production entry; other
staging keys are compared field by field over the staging record's
fields; production-only keys yield extra_in_production entries at the
end.  The key_field argument only names the key slot of the emitted
entry dicts in the source and does not influence the comparison. -/
def compare_catalogs (unescape : String → String) (staging production : Catalog)
    (ignore_fields : List String) (special_field : String) (attr_separator : String)
    (exclude_additional_attributes : List String) (key_field : String) : List DiffEntry :=
  let diffs := staging.foldl (fun diffs p =>
    let sku := p.1
    let stg_row := p.2
    if (PyDict.get? production sku).getD [] = [] then
      diffs ++ [⟨sku, "missing_in_production", "", "", ""⟩]
    else
      let prod_row := (PyDict.get? production sku).getD []
      stg_row.foldl (fun diffs q =>
        let field := q.1
        if ignore_fields.contains field then diffs
        else
          let stg_val := pyStrip (q.2.getD "")
          let prod_val := pyStrip (((PyDict.get? prod_row field).getD none).getD "")
          if field = special_field then
            let subdiffs := diff_additional_attributes unescape stg_val prod_val
              attr_separator exclude_additional_attributes
            diffs ++ subdiffs.map (fun r =>
              ⟨sku, "different_value (additional_attribute)",
               special_field ++ ":" ++ r.1, r.2.1, r.2.2⟩)
          else if stg_val ≠ prod_val then
            diffs ++ [⟨sku, "different_value", field, stg_val, prod_val⟩]
          else diffs) diffs) []
  production.foldl (fun diffs p =>
    if ¬ PyDict.contains staging p.1 then diffs ++ [⟨p.1, "extra_in_production", "", "", ""⟩]
    else diffs) diffs

/-! ## write_report (source lines 176-217) -/

/-- Python html.escape with its default quote=True: the five successive
replacements, ampersand first. -/
def htmlEscape (s : String) : String :=
  pyReplace (pyReplace (pyReplace (pyReplace
    (pyReplace s "&" "&amp;") "<" "&lt;") ">" "&gt;") "\"" "&quot;")
    (String.mk [squote]) "&#x27;"

/-- The escape test of source line 196: some configured name equals the
field or, extended with a colon, is a prefix of the field. -/
def renderEscapeCond (html_fields : List String) (field : String) : Bool :=
  html_fields.any (fun hf => field == hf || (hf ++ ":").data.isPrefixOf field.data)

/-- The rendering of one diff entry in source lines 188-199: the two
fixed tokens for whole-record kinds, otherwise the bracketed
staging-to-production form, with both values markup-escaped when the
escape test holds.  The arrow between the values is the three-character
sequence that stands in the source text. -/
def renderDiff (html_fields : List String) (d : DiffEntry) : String :=
  if d.type = "missing_in_production" then "missing_in_production"
  else if d.type = "extra_in_production" then "extra_in_production"
  else
    let esc := renderEscapeCond html_fields d.field
    let stg_val := if esc then htmlEscape d.staging_value else d.staging_value
    let prod_val := if esc then htmlEscape d.production_value else d.production_value
    d.field ++ " [" ++ stg_val ++ " â†’ " ++ prod_val ++ "]"

/-- One group per key in write_report: the rendered descriptions so far
and the auxiliary display value. -/
structure GroupInfo where
  diffs : List String
  product_websites : String
deriving DecidableEq

/-- The written report: the fixed header and one output row per distinct
key. -/
structure ReportFile where
  header : List String
  rows : List (String × String × String)
deriving DecidableEq

/-- write_report of source lines 176-217, modelled as a pure function:
none stands for the empty-diff early return (the notice is printed and
no file is created); otherwise the created file is the fixed header and
one row per distinct key, in first-appearance order, whose rendered
descriptions are joined with a semicolon and space.  The auxiliary
column takes the staging record's product_websites value, the empty
string when the key or the column is absent or its value is None (the
csv writer prints None as an empty cell). -/
def write_report (diffs : List DiffEntry) (html_fields : List String)
    (staging_data : Catalog) (key_field : String) : Option ReportFile :=
  if diffs = [] then none
  else
    let grouped : PyDict GroupInfo := diffs.foldl (fun g d =>
      let g := if PyDict.contains g d.key then g else PyDict.insert g d.key ⟨[], ""⟩
      PyDict.modify g d.key (fun gi => ⟨gi.diffs ++ [renderDiff html_fields d], gi.product_websites⟩)) []
    let grouped := grouped.map (fun p =>
      (p.1, GroupInfo.mk p.2.diffs
        (match PyDict.get? staging_data p.1 with
         | some stg_row => ((PyDict.get? stg_row "product_websites").getD (some "")).getD ""
         | none => "")))
    some { header := [key_field, "product_websites", "differences"],
           rows := grouped.map (fun p => (p.1, p.2.product_websites, String.intercalate "; " p.2.diffs)) }

/-! ## Lemmas about the dictionary model -/

namespace PyDict

theorem mem_keys_of_mem {α : Type} {d : PyDict α} {k : String} {v : α}
    (h : (k, v) ∈ d) : k ∈ keys d :=
  List.mem_map_of_mem Prod.fst h

theorem get?_eq_none_iff {α : Type} (d : PyDict α) (k : String) :
    get? d k = none ↔ k ∉ keys d := by
  induction d with
  | nil => simp [get?, keys]
  | cons p t ih =>
    obtain ⟨k', v⟩ := p
    by_cases h : k' = k <;> simp [get?, keys, h, ih] <;> tauto

theorem contains_iff_mem_keys {α : Type} (d : PyDict α) (k : String) :
    contains d k = true ↔ k ∈ keys d := by
  rw [contains, Option.isSome_iff_ne_none, ne_eq, get?_eq_none_iff, not_not]

theorem get?_of_mem {α : Type} {d : PyDict α} {k : String} {v : α}
    (hmem : (k, v) ∈ d) (hnd : (keys d).Nodup) : get? d k = some v := by
  induction d with
  | nil => simp at hmem
  | cons p t ih =>
    obtain ⟨k', v'⟩ := p
    simp only [keys, List.map_cons, List.nodup_cons] at hnd
    rcases List.mem_cons.mp hmem with h | h
    · obtain ⟨h1, h2⟩ := Prod.mk.injEq .. ▸ h
      simp [get?, h1.symm, h2]
    · have hne : k' ≠ k := by
        rintro rfl
        exact hnd.1 (mem_keys_of_mem h)
      simp [get?, hne, ih h hnd.2]

theorem mem_of_get?_eq_some {α : Type} {d : PyDict α} {k : String} {v : α}
    (h : get? d k = some v) : (k, v) ∈ d := by
  induction d with
  | nil => simp [get?] at h
  | cons p t ih =>
    obtain ⟨k', v'⟩ := p
    by_cases hk : k' = k
    · subst hk
      rw [get?, if_pos rfl, Option.some_inj] at h
      subst h
      exact List.mem_cons_self _ _
    · rw [get?, if_neg hk] at h
      exact List.mem_cons_of_mem _ (ih h)

theorem insert_fresh {α : Type} {d : PyDict α} {k : String} (v : α) (h : k ∉ keys d) :
    insert d k v = d ++ [(k, v)] := by
  induction d with
  | nil => simp [insert]
  | cons p t ih =>
    simp only [keys, List.map_cons, List.mem_cons] at h
    push_neg at h
    simp [insert, Ne.symm h.1, ih h.2]

theorem keys_insert {α : Type} (d : PyDict α) (k : String) (v : α) :
    keys (insert d k v) = if k ∈ keys d then keys d else keys d ++ [k] := by
  induction d with
  | nil => simp [insert, keys]
  | cons p t ih =>
    obtain ⟨k', v'⟩ := p
    by_cases h : k' = k
    · subst h
      simp [insert, keys]
    · have hstep : insert ((k', v') :: t) k v = (k', v') :: insert t k v := by
        simp [insert, h]
      by_cases hm : k ∈ keys t
      · have hmem : k ∈ keys ((k', v') :: t) := List.mem_cons_of_mem _ hm
        rw [hstep, if_pos hmem]
        show k' :: keys (insert t k v) = k' :: keys t
        rw [ih, if_pos hm]
      · have hmem : k ∉ keys ((k', v') :: t) := by
          intro hcon
          rcases List.mem_cons.mp hcon with h1 | h1
          · exact h h1.symm
          · exact hm h1
        rw [hstep, if_neg hmem]
        show k' :: keys (insert t k v) = (k' :: keys t) ++ [k]
        rw [ih, if_neg hm, List.cons_append]

theorem keys_nodup_insert {α : Type} {d : PyDict α} (k : String) (v : α)
    (h : (keys d).Nodup) : (keys (insert d k v)).Nodup := by
  rw [keys_insert]
  by_cases hm : k ∈ keys d <;> simp [hm, h, List.Nodup.append, List.nodup_append]

end PyDict

/-! ## Generic fold lemmas -/

theorem foldl_eq_append_flatMap {α β : Type} (step : List β → α → List β)
    (g : α → List β) (h : ∀ acc x, step acc x = acc ++ g x) :
    ∀ (l : List α) (init : List β), l.foldl step init = init ++ l.flatMap g := by
  intro l
  induction l with
  | nil => simp
  | cons x t ih =>
    intro init
    simp only [List.foldl_cons, List.flatMap_cons, h, ih, List.append_assoc]

theorem foldl_insert_eq_append {γ α : Type} (step : PyDict α → γ → PyDict α)
    (key : γ → String) (pred : γ → Bool) (f : γ → α)
    (h : ∀ d x, step d x = if pred x then PyDict.insert d (key x) (f x) else d) :
    ∀ (l : List γ) (init : PyDict α), (l.map key).Nodup →
      (∀ x ∈ l, pred x = true → key x ∉ PyDict.keys init) →
      l.foldl step init =
        init ++ l.filterMap (fun x => if pred x then some (key x, f x) else none) := by
  intro l
  induction l with
  | nil => simp
  | cons x t ih =>
    intro init hnd hdisj
    simp only [List.map_cons, List.nodup_cons] at hnd
    by_cases hp : pred x
    · have hfresh : key x ∉ PyDict.keys init := hdisj x (by simp) hp
      rw [List.foldl_cons, h, if_pos hp, PyDict.insert_fresh _ hfresh,
        ih _ hnd.2 ?_, List.filterMap_cons, if_pos hp]
      · simp
      · intro y hy hpy hk
        rw [PyDict.keys, List.map_append] at hk
        rcases List.mem_append.mp hk with hk | hk
        · exact hdisj y (List.mem_cons_of_mem _ hy) hpy hk
        · simp only [List.map_cons, List.map_nil, List.mem_singleton] at hk
          exact hnd.1 (hk ▸ List.mem_map_of_mem key hy)
    · rw [List.foldl_cons, h, if_neg hp, ih _ hnd.2
        (fun y hy hpy => hdisj y (List.mem_cons_of_mem _ hy) hpy),
        List.filterMap_cons, if_neg hp]

/-- A fold whose step leaves the accumulator unchanged on every element
of the list returns the initial accumulator. -/
theorem foldl_fixed {γ β : Type} (step : β → γ → β) (l : List γ)
    (h : ∀ acc, ∀ x ∈ l, step acc x = acc) : ∀ init, l.foldl step init = init := by
  induction l with
  | nil => simp
  | cons x t ih =>
    intro init
    rw [List.foldl_cons, h init x (by simp),
      ih (fun acc y hy => h acc y (List.mem_cons_of_mem _ hy)) init]

/-! ## The structured form of compare_catalogs

The imperative accumulation of compare_catalogs is equal to an
explicitly ordered concatenation: first, for each staging entry in
insertion order, its contribution; then, for each production entry in
insertion order, an extra_in_production entry when its key is not in
staging.  These derived functions exist to state the ordering claims
and to reason about the comparison; the source of truth remains
compare_catalogs above. -/

/-- The diff entries one staging field contributes. -/
def fieldEntries (unescape : String → String) (ignore_fields : List String)
    (special_field attr_separator : String) (exclude_additional_attributes : List String)
    (sku : String) (prod_row : Row) (q : String × Option String) : List DiffEntry :=
  if ignore_fields.contains q.1 then []
  else
    let stg_val := pyStrip (q.2.getD "")
    let prod_val := pyStrip (((PyDict.get? prod_row q.1).getD none).getD "")
    if q.1 = special_field then
      (diff_additional_attributes unescape stg_val prod_val attr_separator
        exclude_additional_attributes).map (fun r =>
          ⟨sku, "different_value (additional_attribute)",
           special_field ++ ":" ++ r.1, r.2.1, r.2.2⟩)
    else if stg_val ≠ prod_val then [⟨sku, "different_value", q.1, stg_val, prod_val⟩]
    else []

/-- The diff entries one staging catalog entry contributes. -/
def keyEntries (unescape : String → String) (production : Catalog)
    (ignore_fields : List String) (special_field attr_separator : String)
    (exclude_additional_attributes : List String) (p : String × Row) : List DiffEntry :=
  if (PyDict.get? production p.1).getD [] = [] then
    [⟨p.1, "missing_in_production", "", "", ""⟩]
  else
    p.2.flatMap (fieldEntries unescape ignore_fields special_field attr_separator
      exclude_additional_attributes p.1 ((PyDict.get? production p.1).getD []))

/-- The diff entries one production catalog entry contributes at the end. -/
def extraEntries (staging : Catalog) (p : String × Row) : List DiffEntry :=
  if PyDict.contains staging p.1 then [] else [⟨p.1, "extra_in_production", "", "", ""⟩]

theorem compare_catalogs_structured (unescape : String → String)
    (staging production : Catalog) (ignore_fields : List String)
    (special_field attr_separator : String)
    (exclude_additional_attributes : List String) (key_field : String) :
    compare_catalogs unescape staging production ignore_fields special_field
      attr_separator exclude_additional_attributes key_field =
    staging.flatMap (keyEntries unescape production ignore_fields special_field
      attr_separator exclude_additional_attributes) ++
    production.flatMap (extraEntries staging) := by
  rw [compare_catalogs]
  rw [foldl_eq_append_flatMap _ (extraEntries staging) ?hextra]
  case hextra =>
    intro acc p
    rw [extraEntries]
    by_cases h : PyDict.contains staging p.1 <;> simp [h]
  rw [foldl_eq_append_flatMap _ (keyEntries unescape production ignore_fields
    special_field attr_separator exclude_additional_attributes) ?hkey, List.nil_append]
  case hkey =>
    intro acc p
    rw [keyEntries]
    by_cases h : (PyDict.get? production p.1).getD [] = []
    · simp [h]
    · rw [if_neg h]
      rw [foldl_eq_append_flatMap _ (fieldEntries unescape ignore_fields special_field
        attr_separator exclude_additional_attributes p.1
        ((PyDict.get? production p.1).getD [])) ?hfield, if_neg h]
      case hfield =>
        intro acc2 q
        simp only [fieldEntries]
        split_ifs <;> simp_all

/-! ## Which key a diff entry carries -/

theorem key_of_mem_fieldEntries {unescape : String → String} {ignore_fields : List String}
    {special_field attr_separator : String} {exclude : List String} {sku : String}
    {prod_row : Row} {q : String × Option String} {e : DiffEntry}
    (h : e ∈ fieldEntries unescape ignore_fields special_field attr_separator exclude
      sku prod_row q) : e.key = sku := by
  simp only [fieldEntries] at h
  split_ifs at h
  · simp at h
  · rcases List.mem_map.mp h with ⟨r, -, rfl⟩
    rfl
  · rcases List.mem_singleton.mp h with rfl
    rfl
  · simp at h

theorem key_of_mem_keyEntries {unescape : String → String} {production : Catalog}
    {ignore_fields : List String} {special_field attr_separator : String}
    {exclude : List String} {p : String × Row} {e : DiffEntry}
    (h : e ∈ keyEntries unescape production ignore_fields special_field attr_separator
      exclude p) : e.key = p.1 := by
  simp only [keyEntries] at h
  split_ifs at h
  · rcases List.mem_singleton.mp h with rfl
    rfl
  · rcases List.mem_flatMap.mp h with ⟨q, -, hq⟩
    exact key_of_mem_fieldEntries hq

theorem key_of_mem_extraEntries {staging : Catalog} {p : String × Row} {e : DiffEntry}
    (h : e ∈ extraEntries staging p) : e.key = p.1 := by
  simp only [extraEntries] at h
  split_ifs at h
  · simp at h
  · rcases List.mem_singleton.mp h with rfl
    rfl

/-! ## Filtering the diff sequence by key -/

theorem filter_flatMap_by_key {α : Type} (l : List (String × α))
    (F : String × α → List DiffEntry) (k : String)
    (hF : ∀ p e, e ∈ F p → e.key = p.1) :
    (l.flatMap F).filter (fun e => e.key == k) =
      (l.filter (fun p => p.1 == k)).flatMap F := by
  induction l with
  | nil => simp
  | cons p t ih =>
    simp only [List.flatMap_cons, List.filter_append, ih, List.filter_cons]
    by_cases h : p.1 = k
    · have h1 : (F p).filter (fun e => e.key == k) = F p :=
        List.filter_eq_self.mpr (fun e he => by simp [hF p e he, h])
      simp [h, h1]
    · have h1 : (F p).filter (fun e => e.key == k) = [] :=
        List.filter_eq_nil.mpr (fun e he => by simp [hF p e he, h])
      simp [h, h1]

theorem filter_fst_of_nodup {α : Type} {l : List (String × α)} {k : String}
    (hnd : (l.map Prod.fst).Nodup) (hk : k ∈ l.map Prod.fst) :
    ∃ r, l.filter (fun p => p.1 == k) = [(k, r)] := by
  induction l with
  | nil => simp at hk
  | cons p t ih =>
    simp only [List.map_cons, List.nodup_cons] at hnd
    by_cases h : p.1 = k
    · refine ⟨p.2, ?_⟩
      have ht : t.filter (fun q => q.1 == k) = [] := by
        rw [List.filter_eq_nil]
        intro q hq
        simp only [beq_iff_eq]
        intro hqk
        exact hnd.1 (h ▸ hqk ▸ List.mem_map_of_mem Prod.fst hq)
      rw [List.filter_cons, if_pos (by simp [h]), ht]
      rw [← h]
    · have hk' : k ∈ t.map Prod.fst := by
        rcases List.mem_cons.mp hk with h1 | h1
        · exact absurd h1.symm h
        · exact h1
      obtain ⟨r, hr⟩ := ih hnd.2 hk'
      exact ⟨r, by rw [List.filter_cons, if_neg (by simp [h]), hr]⟩

theorem filter_fst_of_not_mem {α : Type} {l : List (String × α)} {k : String}
    (hk : k ∉ l.map Prod.fst) : l.filter (fun p => p.1 == k) = [] := by
  rw [List.filter_eq_nil]
  intro q hq
  simp only [beq_iff_eq]
  intro hqk
  exact hk (hqk ▸ List.mem_map_of_mem Prod.fst hq)

/-! ## The parsed attribute map has unique sub-keys -/

theorem keys_nodup_foldl_insert {γ : Type} {α : Type} (step : PyDict α → γ → PyDict α)
    (h : ∀ d x, ∃ k v, step d x = PyDict.insert d k v) :
    ∀ (l : List γ) (init : PyDict α), (PyDict.keys init).Nodup →
      (PyDict.keys (l.foldl step init)).Nodup := by
  intro l
  induction l with
  | nil => exact fun init h0 => h0
  | cons x t ih =>
    intro init h0
    rw [List.foldl_cons]
    obtain ⟨k, v, hkv⟩ := h init x
    exact ih _ (hkv ▸ PyDict.keys_nodup_insert k v h0)

theorem parse_keys_nodup (unescape : String → String) (s sep : String) :
    (PyDict.keys (parse_additional_attributes unescape s sep)).Nodup := by
  rw [parse_additional_attributes]
  split_ifs
  · simp [PyDict.keys]
  · apply keys_nodup_foldl_insert _ ?_ _ _ (by simp [PyDict.keys])
    intro d pair
    by_cases h : pair.data.contains '='
    · exact ⟨_, _, by rw [if_pos h]⟩
    · exact ⟨_, _, by rw [if_neg h]⟩

/-! ## The structured form of diff_additional_attributes -/

/-- The selection the first loop of diff_additional_attributes makes
from the staging attribute map. -/
def stgSubSelect (unescape : String → String) (prod_val attr_separator : String)
    (exclude_attrs : List String) (p : String × String) : Option (String × (String × String)) :=
  if (!exclude_attrs.contains p.1 &&
      (PyDict.getD (parse_additional_attributes unescape prod_val attr_separator) p.1 "" != p.2)) then
    some (p.1, (p.2, PyDict.getD (parse_additional_attributes unescape prod_val attr_separator) p.1 ""))
  else none

/-- The selection the second loop of diff_additional_attributes makes
from the production attribute map. -/
def prodSubSelect (unescape : String → String) (stg_val attr_separator : String)
    (exclude_attrs : List String) (p : String × String) : Option (String × (String × String)) :=
  if (!exclude_attrs.contains p.1 &&
      !PyDict.contains (parse_additional_attributes unescape stg_val attr_separator) p.1) then
    some (p.1, ("", p.2))
  else none

/-- A key of the selected filterMap output is a key of the source list. -/
theorem mem_keys_filterMap_select {γ α : Type} (l : List γ) (key : γ → String)
    (pred : γ → Bool) (f : γ → α) {k : String}
    (h : k ∈ PyDict.keys (l.filterMap (fun x => if pred x then some (key x, f x) else none))) :
    k ∈ l.map key := by
  rw [PyDict.keys] at h
  rcases List.mem_map.mp h with ⟨q, hq, hq1⟩
  rcases List.mem_filterMap.mp hq with ⟨x, hx, hxeq⟩
  have hxeq' : (if pred x then some (key x, f x) else none) = some q := hxeq
  by_cases hp : pred x
  · rw [if_pos hp, Option.some_inj] at hxeq'
    rw [← hq1, ← hxeq']
    exact List.mem_map_of_mem key hx
  · rw [if_neg hp] at hxeq'
    exact absurd hxeq' (by simp)

theorem diff_additional_attributes_structured (unescape : String → String)
    (stg_val prod_val attr_separator : String) (exclude_attrs : List String) :
    diff_additional_attributes unescape stg_val prod_val attr_separator exclude_attrs =
      (parse_additional_attributes unescape stg_val attr_separator).filterMap
        (stgSubSelect unescape prod_val attr_separator exclude_attrs) ++
      (parse_additional_attributes unescape prod_val attr_separator).filterMap
        (prodSubSelect unescape stg_val attr_separator exclude_attrs) := by
  rw [diff_additional_attributes]
  rw [foldl_insert_eq_append _ Prod.fst
    (fun p => !exclude_attrs.contains p.1 &&
      (PyDict.getD (parse_additional_attributes unescape prod_val attr_separator) p.1 "" != p.2))
    (fun p => (p.2, PyDict.getD (parse_additional_attributes unescape prod_val attr_separator) p.1 ""))
    ?h1 _ _ (parse_keys_nodup unescape stg_val attr_separator) (by simp [PyDict.keys])]
  case h1 =>
    intro d p
    by_cases hex : p.1 ∈ exclude_attrs
    · simp [hex]
    · by_cases hne : PyDict.getD (parse_additional_attributes unescape prod_val attr_separator) p.1 "" = p.2
      · simp [hex, hne]
      · simp [hex, hne]
  rw [foldl_insert_eq_append _ Prod.fst
    (fun p => !exclude_attrs.contains p.1 &&
      !PyDict.contains (parse_additional_attributes unescape stg_val attr_separator) p.1)
    (fun p => ("", p.2)) ?h2 _ _ (parse_keys_nodup unescape prod_val attr_separator) ?hdisj]
  case h2 =>
    intro d p
    by_cases hex : p.1 ∈ exclude_attrs
    · simp [hex]
    · by_cases hc : PyDict.contains (parse_additional_attributes unescape stg_val attr_separator) p.1
      · simp [hex, hc]
      · simp [hex, hc]
  case hdisj =>
    intro p hp hpred hkmem
    rw [List.nil_append] at hkmem
    have h2 : PyDict.contains (parse_additional_attributes unescape stg_val attr_separator) p.1 = false := by
      simp only [Bool.and_eq_true, Bool.not_eq_true'] at hpred
      exact hpred.2
    have hsub : p.1 ∈ PyDict.keys (parse_additional_attributes unescape stg_val attr_separator) :=
      mem_keys_filterMap_select _ _ _ _ hkmem
    rw [← PyDict.contains_iff_mem_keys, h2] at hsub
    simp at hsub
  · rw [List.nil_append]
    rfl

/-- On equal inputs the attribute diff is empty. -/
theorem diff_additional_attributes_self (unescape : String → String)
    (v attr_separator : String) (exclude_attrs : List String) :
    diff_additional_attributes unescape v v attr_separator exclude_attrs = [] := by
  rw [diff_additional_attributes_structured]
  rw [List.filterMap_eq_nil_iff.mpr ?hs, List.filterMap_eq_nil_iff.mpr ?hp, List.append_nil]
  case hs =>
    intro p hp
    have hv : PyDict.getD (parse_additional_attributes unescape v attr_separator) p.1 "" = p.2 := by
      rw [PyDict.getD, PyDict.get?_of_mem hp (parse_keys_nodup unescape v attr_separator)]
      rfl
    simp [stgSubSelect, hv]
  case hp =>
    intro p hp
    have hc : PyDict.contains (parse_additional_attributes unescape v attr_separator) p.1 = true := by
      rw [PyDict.contains, PyDict.get?_of_mem hp (parse_keys_nodup unescape v attr_separator)]
      rfl
    simp [prodSubSelect, hc]


/-! ## Claim theorems on the differ and the report writer -/

/-- C9: when the diff entry sequence given to write_report is empty, it
emits the no-differences notice and does nothing further: no output
rows are written and no output file is created.  The none result models
the early return that only prints the notice. -/
theorem write_report_empty_diffs (html_fields : List String) (staging_data : Catalog)
    (key_field : String) : write_report [] html_fields staging_data key_field = none := by
  rfl

/-- C3: a key present in staging and absent from production yields
exactly one diff entry for that key, of kind missing_in_production with
empty field and values, and no other entries carry that key; a key
present in production and absent from staging yields exactly one
extra_in_production entry for that key. -/
theorem missing_and_extra_entries_unique (unescape : String → String)
    (staging production : Catalog) (ignore_fields : List String)
    (special_field attr_separator : String) (exclude : List String) (key_field k : String)
    (hnst : (PyDict.keys staging).Nodup) (hnpr : (PyDict.keys production).Nodup) :
    (k ∈ PyDict.keys staging → k ∉ PyDict.keys production →
      (compare_catalogs unescape staging production ignore_fields special_field
        attr_separator exclude key_field).filter (fun e => e.key == k) =
        [⟨k, "missing_in_production", "", "", ""⟩]) ∧
    (k ∈ PyDict.keys production → k ∉ PyDict.keys staging →
      (compare_catalogs unescape staging production ignore_fields special_field
        attr_separator exclude key_field).filter (fun e => e.key == k) =
        [⟨k, "extra_in_production", "", "", ""⟩]) := by
  rw [compare_catalogs_structured]
  constructor
  · intro hks hkp
    rw [List.filter_append,
      filter_flatMap_by_key _ _ _ (fun p e he => key_of_mem_keyEntries he),
      filter_flatMap_by_key _ _ _ (fun p e he => key_of_mem_extraEntries he)]
    obtain ⟨r, hr⟩ := filter_fst_of_nodup hnst hks
    rw [hr, filter_fst_of_not_mem hkp]
    simp only [List.flatMap_cons, List.flatMap_nil, List.append_nil]
    have hget : PyDict.get? production k = none := (PyDict.get?_eq_none_iff _ _).mpr hkp
    simp [keyEntries, hget]
  · intro hkp hks
    rw [List.filter_append,
      filter_flatMap_by_key _ _ _ (fun p e he => key_of_mem_keyEntries he),
      filter_flatMap_by_key _ _ _ (fun p e he => key_of_mem_extraEntries he),
      filter_fst_of_not_mem hks]
    obtain ⟨r, hr⟩ := filter_fst_of_nodup hnpr hkp
    rw [hr]
    simp only [List.flatMap_nil, List.flatMap_cons, List.append_nil, List.nil_append]
    have hc : PyDict.contains staging k = false := by
      rw [← Bool.not_eq_true, PyDict.contains_iff_mem_keys]
      exact hks
    simp [extraEntries, hc]

/-- Witness for the missing and extra entry claim at concrete catalogs. -/
theorem missing_and_extra_entries_unique_witness :
    (compare_catalogs id [("B2", [("sku", some "B2")])] [("C3", [("sku", some "C3")])]
        [] "additional_attributes" "Â§" [] "sku").filter (fun e => e.key == "B2") =
      [⟨"B2", "missing_in_production", "", "", ""⟩] :=
  (missing_and_extra_entries_unique id [("B2", [("sku", some "B2")])]
    [("C3", [("sku", some "C3")])] [] "additional_attributes" "Â§" [] "sku" "B2"
    (by decide) (by decide)).1 (by decide) (by decide)

/-- C10: every different_value entry's field is a column of the staging
record of the entry's key, so a plain column present only in the
production record is never compared and never yields such an entry. -/
theorem different_value_field_from_staging (unescape : String → String)
    (staging production : Catalog) (ignore_fields : List String)
    (special_field attr_separator : String) (exclude : List String) (key_field : String)
    (hnst : (PyDict.keys staging).Nodup) :
    ∀ e ∈ compare_catalogs unescape staging production ignore_fields special_field
        attr_separator exclude key_field,
      e.type = "different_value" →
      ∃ r, PyDict.get? staging e.key = some r ∧ e.field ∈ PyDict.keys r := by
  intro e he htype
  rw [compare_catalogs_structured] at he
  rcases List.mem_append.mp he with he | he
  · rcases List.mem_flatMap.mp he with ⟨p, hp, hpe⟩
    simp only [keyEntries] at hpe
    split_ifs at hpe with hmiss
    · rcases List.mem_singleton.mp hpe with rfl
      have h' : "missing_in_production" = "different_value" := htype
      exact absurd h' (by decide)
    · rcases List.mem_flatMap.mp hpe with ⟨q, hq, hqe⟩
      simp only [fieldEntries] at hqe
      split_ifs at hqe with hig hsp hne
      · simp at hqe
      · rcases List.mem_map.mp hqe with ⟨r0, -, rfl⟩
        have h' : "different_value (additional_attribute)" = "different_value" := htype
        exact absurd h' (by decide)
      · rcases List.mem_singleton.mp hqe with rfl
        exact ⟨p.2, PyDict.get?_of_mem hp hnst, List.mem_map_of_mem Prod.fst hq⟩
      · simp at hqe
  · rcases List.mem_flatMap.mp he with ⟨p, hp, hpe⟩
    simp only [extraEntries] at hpe
    split_ifs at hpe
    · simp at hpe
    · rcases List.mem_singleton.mp hpe with rfl
      have h' : "extra_in_production" = "different_value" := htype
      exact absurd h' (by decide)

/-- Witness for the staging-columns claim at a concrete pair of catalogs. -/
theorem different_value_field_from_staging_witness :
    ∃ r, PyDict.get? [("A", [("name", some "x")])] "A" = some r ∧ "name" ∈ PyDict.keys r :=
  different_value_field_from_staging id [("A", [("name", some "x")])]
    [("A", [("name", some "y")])] [] "additional_attributes" "Â§" [] "sku"
    (by decide) ⟨"A", "different_value", "name", "x", "y"⟩ (by decide) rfl

/-- C4: comparing a catalog against itself under any configuration
yields no diff entries.  The hypotheses are the data-model invariants
of a catalog: keys are unique and every record is a non-empty Python
dict (it holds at least the key column) with unique field names.  The
separator is assumed non-empty: Python's str.split raises on an empty
separator before any output is produced, a failure mode outside this
total embedding. -/
theorem compare_self_empty (unescape : String → String) (c : Catalog)
    (ignore_fields : List String) (special_field attr_separator : String)
    (exclude : List String) (key_field : String)
    (hsep : attr_separator ≠ "")
    (hnd : (PyDict.keys c).Nodup)
    (hrec : ∀ p ∈ c, p.2 ≠ [] ∧ (PyDict.keys p.2).Nodup) :
    compare_catalogs unescape c c ignore_fields special_field attr_separator
      exclude key_field = [] := by
  rw [compare_catalogs_structured]
  rw [List.flatMap_eq_nil_iff.mpr ?h1, List.flatMap_eq_nil_iff.mpr ?h2, List.append_nil]
  case h1 =>
    intro p hp
    have hget : PyDict.get? c p.1 = some p.2 := PyDict.get?_of_mem hp hnd
    simp only [keyEntries, hget, Option.getD_some]
    rw [if_neg (hrec p hp).1]
    rw [List.flatMap_eq_nil_iff]
    intro q hq
    have hq2 : PyDict.get? p.2 q.1 = some q.2 := PyDict.get?_of_mem hq (hrec p hp).2
    simp only [fieldEntries, hq2, Option.getD_some]
    split_ifs with hig hsp hne
    · rfl
    · rw [diff_additional_attributes_self]
      rfl
    · exact absurd rfl hne
    · rfl
  case h2 =>
    intro p hp
    have hc : PyDict.contains c p.1 = true := by
      rw [PyDict.contains, PyDict.get?_of_mem hp hnd]
      rfl
    simp [extraEntries, hc]

/-- Witness for the self-comparison claim at a concrete catalog. -/
theorem compare_self_empty_witness :
    compare_catalogs id [("A1", [("sku", some "A1"), ("color", some "red")])]
      [("A1", [("sku", some "A1"), ("color", some "red")])]
      [] "additional_attributes" "Â§" [] "sku" = [] :=
  compare_self_empty id [("A1", [("sku", some "A1"), ("color", some "red")])]
    [] "additional_attributes" "Â§" [] "sku" (by decide) (by decide) (by decide)

/-- C7: the diff entry sequence lists the staging-order contributions
first, with the production-only extra_in_production entries appended
afterwards in production order; and within one key's
additional-attribute diff the sub-keys come first from the staging
attribute map in its order, then the production-only sub-keys in the
production map's order. -/
theorem compare_catalogs_output_order :
    (∀ (unescape : String → String) (staging production : Catalog)
        (ignore_fields : List String) (special_field attr_separator : String)
        (exclude : List String) (key_field : String),
      compare_catalogs unescape staging production ignore_fields special_field
          attr_separator exclude key_field =
        staging.flatMap (keyEntries unescape production ignore_fields special_field
          attr_separator exclude) ++
        production.flatMap (extraEntries staging)) ∧
    (∀ (unescape : String → String) (stg_val prod_val attr_separator : String)
        (exclude_attrs : List String),
      PyDict.keys (diff_additional_attributes unescape stg_val prod_val attr_separator
          exclude_attrs) =
        PyDict.keys ((parse_additional_attributes unescape stg_val attr_separator).filterMap
          (stgSubSelect unescape prod_val attr_separator exclude_attrs)) ++
        PyDict.keys ((parse_additional_attributes unescape prod_val attr_separator).filterMap
          (prodSubSelect unescape stg_val attr_separator exclude_attrs))) := by
  constructor
  · exact compare_catalogs_structured
  · intro u s p sep ex
    rw [diff_additional_attributes_structured, PyDict.keys, List.map_append]
    rfl


/-! ## C6: the attribute codec against its specification -/

/-- The claim's interpretation of one separator-delimited pair: with an
equals sign, split at the first one only, trim both parts, unescape the
value and then strip one layer of surrounding matching quotes; without
one, the whole trimmed pair is a sub-key with empty value.  This
definition follows the claim's words, to be compared with the source
translation parse_additional_attributes. -/
def pairInterp (unescape : String → String) (pair : String) : String × String :=
  if pair.data.contains '=' then
    (pyStrip (String.mk (splitFirstL '=' pair.data).1),
     String.mk (stripOuterQuotesL (unescape (pyStrip (String.mk (splitFirstL '=' pair.data).2))).data))
  else (pyStrip pair, "")

/-- The claim's description of the attribute parser: empty map on empty
input, otherwise a fold of overwriting insertions of the interpreted
pairs over the separator split.  This definition follows the claim's
words. -/
def parseAttrsSpec (unescape : String → String) (attr_string attr_separator : String) :
    PyDict String :=
  if attr_string = "" then []
  else (pySplit attr_string attr_separator).foldl
    (fun m pair => PyDict.insert m (pairInterp unescape pair).1 (pairInterp unescape pair).2) []

/-- C6: parse_additional_attributes maps each separator-delimited pair
containing an equals sign by splitting on the first one only, trimming
key and value, unescaping the value and stripping one layer of
surrounding matching quotes; maps a pair without an equals sign to the
trimmed pair as a flag sub-key with empty value; returns the empty map
on empty input; and later duplicate sub-keys overwrite earlier ones
(the dict insert).  The separator is assumed non-empty, since Python
raises on an empty split separator. -/
theorem parse_additional_attributes_spec (unescape : String → String)
    (attr_string attr_separator : String) (hsep : attr_separator ≠ "") :
    parse_additional_attributes unescape attr_string attr_separator =
      parseAttrsSpec unescape attr_string attr_separator := by
  rw [parse_additional_attributes, parseAttrsSpec]
  split_ifs with h
  · rfl
  · congr 1
    funext m pair
    by_cases hc : '=' ∈ pair.data
    · simp [hc, pairInterp]
    · simp [hc, pairInterp]

/-- Witness for the attribute-codec claim at a concrete input. -/
theorem parse_additional_attributes_spec_witness :
    parse_additional_attributes id "size=MÂ§note=okÂ§flag" "Â§" =
      parseAttrsSpec id "size=MÂ§note=okÂ§flag" "Â§" :=
  parse_additional_attributes_spec id "size=MÂ§note=okÂ§flag" "Â§" (by decide)

/-! ## C2: which sub-keys appear in the attribute diff -/

/-- The claim's condition for a sub-key to appear in the attribute
diff, read literally: the sub-key is not excluded, and either it is
present on both sides with different trimmed values, or it is present
on exactly one side.  This definition follows the claim's words. -/
abbrev claimSubKeyAppears (unescape : String → String)
    (stg_val prod_val attr_separator : String) (exclude_attrs : List String)
    (k : String) : Prop :=
  k ∉ exclude_attrs ∧
  ((k ∈ PyDict.keys (parse_additional_attributes unescape stg_val attr_separator) ∧
    k ∈ PyDict.keys (parse_additional_attributes unescape prod_val attr_separator) ∧
    pyStrip (PyDict.getD (parse_additional_attributes unescape stg_val attr_separator) k "") ≠
      pyStrip (PyDict.getD (parse_additional_attributes unescape prod_val attr_separator) k "")) ∨
   (k ∈ PyDict.keys (parse_additional_attributes unescape stg_val attr_separator) ∧
    k ∉ PyDict.keys (parse_additional_attributes unescape prod_val attr_separator)) ∨
   (k ∉ PyDict.keys (parse_additional_attributes unescape stg_val attr_separator) ∧
    k ∈ PyDict.keys (parse_additional_attributes unescape prod_val attr_separator)))

/-- C2 counterexample: a flag sub-key present only on the staging side
with empty decoded value satisfies the claim's appearance condition,
yet diff_additional_attributes omits it: the first loop compares the
empty staging value against the empty default for the absent side and
finds them equal. -/
theorem attr_diff_presence_counterexample :
    claimSubKeyAppears id "k" "" "|" [] "k" ∧
      "k" ∉ PyDict.keys (diff_additional_attributes id "k" "" "|" []) := by
  constructor
  · constructor
    · decide
    · right
      left
      constructor
      · decide
      · decide
  · decide

/-- Membership in the keys of the first loop's selection, characterised. -/
theorem mem_keys_filterMap_stgSubSelect (unescape : String → String)
    (prod_val attr_separator : String) (exclude_attrs : List String)
    (l : PyDict String) (k : String) :
    k ∈ PyDict.keys (l.filterMap (stgSubSelect unescape prod_val attr_separator exclude_attrs)) ↔
      ∃ sv, (k, sv) ∈ l ∧ exclude_attrs.contains k = false ∧
        PyDict.getD (parse_additional_attributes unescape prod_val attr_separator) k "" ≠ sv := by
  induction l with
  | nil => simp [PyDict.keys]
  | cons x t ih =>
    rw [List.filterMap_cons]
    by_cases hcond : (!exclude_attrs.contains x.1 &&
        (PyDict.getD (parse_additional_attributes unescape prod_val attr_separator) x.1 "" != x.2)) = true
    · have hsel : stgSubSelect unescape prod_val attr_separator exclude_attrs x =
          some (x.1, (x.2, PyDict.getD (parse_additional_attributes unescape prod_val attr_separator) x.1 "")) := by
        rw [stgSubSelect, if_pos hcond]
      simp only [hsel]
      simp only [Bool.and_eq_true, Bool.not_eq_true', bne_iff_ne] at hcond
      rw [show PyDict.keys ((x.1, (x.2, PyDict.getD (parse_additional_attributes unescape
            prod_val attr_separator) x.1 "")) ::
          List.filterMap (stgSubSelect unescape prod_val attr_separator exclude_attrs) t) =
          x.1 :: PyDict.keys (List.filterMap (stgSubSelect unescape prod_val attr_separator
            exclude_attrs) t) from rfl]
      rw [List.mem_cons, ih]
      constructor
      · intro h
        rcases h with h1 | ⟨sv, hmem, hex, hne⟩
        · subst h1
          exact ⟨x.2, List.mem_cons_self x t, hcond.1, hcond.2⟩
        · exact ⟨sv, List.mem_cons_of_mem _ hmem, hex, hne⟩
      · intro ⟨sv, hmem, hex, hne⟩
        rcases List.mem_cons.mp hmem with h1 | h1
        · exact Or.inl (congrArg Prod.fst h1)
        · exact Or.inr ⟨sv, h1, hex, hne⟩
    · have hsel : stgSubSelect unescape prod_val attr_separator exclude_attrs x = none := by
        rw [stgSubSelect, if_neg hcond]
      simp only [hsel]
      rw [ih]
      constructor
      · intro ⟨sv, hmem, hex, hne⟩
        exact ⟨sv, List.mem_cons_of_mem _ hmem, hex, hne⟩
      · intro ⟨sv, hmem, hex, hne⟩
        rcases List.mem_cons.mp hmem with h1 | h1
        · exfalso
          apply hcond
          have hk : x.1 = k := (congrArg Prod.fst h1).symm
          have hv : x.2 = sv := (congrArg Prod.snd h1).symm
          simp only [Bool.and_eq_true, Bool.not_eq_true', bne_iff_ne]
          exact ⟨by rw [hk]; exact hex, by rw [hk, hv]; exact hne⟩
        · exact ⟨sv, h1, hex, hne⟩

/-- Membership in the keys of the second loop's selection, characterised. -/
theorem mem_keys_filterMap_prodSubSelect (unescape : String → String)
    (stg_val attr_separator : String) (exclude_attrs : List String)
    (l : PyDict String) (k : String) :
    k ∈ PyDict.keys (l.filterMap (prodSubSelect unescape stg_val attr_separator exclude_attrs)) ↔
      k ∈ l.map Prod.fst ∧ exclude_attrs.contains k = false ∧
        PyDict.contains (parse_additional_attributes unescape stg_val attr_separator) k = false := by
  induction l with
  | nil => simp [PyDict.keys]
  | cons x t ih =>
    rw [List.filterMap_cons]
    by_cases hcond : (!exclude_attrs.contains x.1 &&
        !PyDict.contains (parse_additional_attributes unescape stg_val attr_separator) x.1) = true
    · have hsel : prodSubSelect unescape stg_val attr_separator exclude_attrs x =
          some (x.1, ("", x.2)) := by
        rw [prodSubSelect, if_pos hcond]
      simp only [hsel]
      simp only [Bool.and_eq_true, Bool.not_eq_true'] at hcond
      rw [show PyDict.keys ((x.1, ("", x.2)) ::
          List.filterMap (prodSubSelect unescape stg_val attr_separator exclude_attrs) t) =
          x.1 :: PyDict.keys (List.filterMap (prodSubSelect unescape stg_val attr_separator
            exclude_attrs) t) from rfl]
      rw [List.mem_cons, ih, List.map_cons, List.mem_cons]
      constructor
      · intro h
        rcases h with h1 | ⟨hmem, hex, hnc⟩
        · subst h1
          exact ⟨Or.inl rfl, hcond.1, hcond.2⟩
        · exact ⟨Or.inr hmem, hex, hnc⟩
      · intro ⟨hmem, hex, hnc⟩
        rcases hmem with h1 | h1
        · exact Or.inl h1
        · exact Or.inr ⟨h1, hex, hnc⟩
    · have hsel : prodSubSelect unescape stg_val attr_separator exclude_attrs x = none := by
        rw [prodSubSelect, if_neg hcond]
      simp only [hsel]
      rw [ih, List.map_cons, List.mem_cons]
      constructor
      · intro ⟨hmem, hex, hnc⟩
        exact ⟨Or.inr hmem, hex, hnc⟩
      · intro ⟨hmem, hex, hnc⟩
        rcases hmem with h1 | h1
        · exfalso
          apply hcond
          simp only [Bool.and_eq_true, Bool.not_eq_true']
          exact ⟨by rw [← h1]; exact hex, by rw [← h1]; exact hnc⟩
        · exact ⟨h1, hex, hnc⟩

/-- C2 amended: a sub-key appears in the attribute diff exactly when it
is not excluded and either it is present in the staging attribute map
with a decoded value different from the production side's decoded value
(the empty string standing in for an absent side), or it is present
only in the production attribute map (then it appears even when its
decoded value is empty).  Values are compared as decoded, with no
further trimming.  The separator is assumed non-empty, since Python
raises on an empty split separator. -/
theorem attr_diff_membership_iff (unescape : String → String)
    (stg_val prod_val attr_separator : String) (exclude_attrs : List String) (k : String)
    (hsep : attr_separator ≠ "") :
    k ∈ PyDict.keys (diff_additional_attributes unescape stg_val prod_val attr_separator
        exclude_attrs) ↔
      (exclude_attrs.contains k = false ∧
        ((∃ sv, PyDict.get? (parse_additional_attributes unescape stg_val attr_separator) k =
            some sv ∧
            sv ≠ PyDict.getD (parse_additional_attributes unescape prod_val attr_separator) k "") ∨
         (k ∈ PyDict.keys (parse_additional_attributes unescape prod_val attr_separator) ∧
          k ∉ PyDict.keys (parse_additional_attributes unescape stg_val attr_separator)))) := by
  rw [diff_additional_attributes_structured]
  rw [show ∀ (a b : PyDict (String × String)), PyDict.keys (a ++ b) =
      PyDict.keys a ++ PyDict.keys b from fun a b => List.map_append _ a b]
  rw [List.mem_append, mem_keys_filterMap_stgSubSelect, mem_keys_filterMap_prodSubSelect]
  constructor
  · intro h
    rcases h with ⟨sv, hmem, hex, hne⟩ | ⟨hmem, hex, hnc⟩
    · exact ⟨hex, Or.inl ⟨sv,
        PyDict.get?_of_mem hmem (parse_keys_nodup unescape stg_val attr_separator),
        Ne.symm hne⟩⟩
    · refine ⟨hex, Or.inr ⟨hmem, ?_⟩⟩
      rw [← PyDict.contains_iff_mem_keys, hnc]
      simp
  · intro ⟨hex, h⟩
    rcases h with ⟨sv, hget, hne⟩ | ⟨hmem, hnc⟩
    · exact Or.inl ⟨sv, PyDict.mem_of_get?_eq_some hget, hex, Ne.symm hne⟩
    · refine Or.inr ⟨hmem, hex, ?_⟩
      rw [← Bool.not_eq_true, PyDict.contains_iff_mem_keys]
      exact hnc

/-- Witness for the amended sub-key appearance claim: a present sub-key
with differing values appears in the diff. -/
theorem attr_diff_membership_iff_witness :
    "size" ∈ PyDict.keys (diff_additional_attributes id "size=MÂ§note=ok" "size=LÂ§note=ok"
      "Â§" []) :=
  (attr_diff_membership_iff id "size=MÂ§note=ok" "size=LÂ§note=ok" "Â§" [] "size"
    (by decide)).mpr (by decide)


/-! ## C8: the report writer -/

/-- First-appearance deduplication worker. -/
def dedupGo (seen : List String) : List String → List String
  | [] => []
  | k :: t => if seen.contains k then dedupGo seen t else k :: dedupGo (k :: seen) t

/-- The distinct keys of a list in first-appearance order. -/
def dedupKeys (l : List String) : List String :=
  dedupGo [] l

/-- The auxiliary display value write_report draws from the staging
catalog: the product_websites value of the staging record, the empty
string when the key or the column is absent or the value is None. -/
def pwOf (staging_data : Catalog) (k : String) : String :=
  match PyDict.get? staging_data k with
  | some stg_row => ((PyDict.get? stg_row "product_websites").getD (some "")).getD ""
  | none => ""

/-- The text of a field name before its first colon (the whole name
when it has no colon). -/
def fieldBeforeColon (field : String) : String :=
  String.mk (splitFirstL ':' field.data).1

/-- The claim's escape condition, read literally: the field name is in
the configured set or, for a field containing a colon, the part before
the colon is.  This definition follows the claim's words, to be
compared with the source's renderEscapeCond. -/
def claimEscapeCond (html_fields : List String) (field : String) : Bool :=
  html_fields.contains field ||
    (field.data.contains ':' && html_fields.contains (fieldBeforeColon field))

/-- The claim's rendering of one diff entry: as the source's renderDiff
but with the claim's escape condition.  This definition follows the
claim's words. -/
def renderDiffClaim (html_fields : List String) (d : DiffEntry) : String :=
  if d.type = "missing_in_production" then "missing_in_production"
  else if d.type = "extra_in_production" then "extra_in_production"
  else
    let esc := claimEscapeCond html_fields d.field
    let stg_val := if esc then htmlEscape d.staging_value else d.staging_value
    let prod_val := if esc then htmlEscape d.production_value else d.production_value
    d.field ++ " [" ++ stg_val ++ " â†’ " ++ prod_val ++ "]"

/-- C8 counterexample: with the configured escape set holding the
colon-containing name a:b, the entry field a:b:c is escaped by the code
(the configured name followed by a colon is a prefix of the field),
while under the claim's condition it is not: a:b:c itself is not in the
set and the part before its first colon, a, is not either.  The two
renderings differ on a value containing markup. -/
theorem write_report_escape_counterexample :
    write_report [⟨"A", "different_value (additional_attribute)", "a:b:c", "<", ""⟩]
        ["a:b"] [] "sku" =
      some ⟨["sku", "product_websites", "differences"], [("A", "", "a:b:c [&lt; â†’ ]")]⟩ ∧
    renderDiffClaim ["a:b"] ⟨"A", "different_value (additional_attribute)", "a:b:c", "<", ""⟩ =
      "a:b:c [< â†’ ]" ∧
    ("a:b:c [&lt; â†’ ]" : String) ≠ "a:b:c [< â†’ ]" := by
  exact ⟨by decide, by decide, by decide⟩

theorem mem_dedupGo (k : String) : ∀ (l seen : List String),
    k ∈ dedupGo seen l ↔ k ∉ seen ∧ k ∈ l := by
  intro l
  induction l with
  | nil => simp [dedupGo]
  | cons a t ih =>
    intro seen
    rw [dedupGo]
    by_cases ha : a ∈ seen
    · rw [if_pos (by simpa using ha), ih]
      constructor
      · exact fun ⟨h1, h2⟩ => ⟨h1, List.mem_cons_of_mem _ h2⟩
      · intro ⟨h1, h2⟩
        rcases List.mem_cons.mp h2 with h3 | h3
        · exact absurd (h3 ▸ ha) h1
        · exact ⟨h1, h3⟩
    · rw [if_neg (by simpa using ha), List.mem_cons, ih]
      constructor
      · intro h
        rcases h with h1 | ⟨h1, h2⟩
        · exact ⟨h1 ▸ ha, h1 ▸ List.mem_cons_self a t⟩
        · refine ⟨fun hc => h1 (List.mem_cons_of_mem _ hc), List.mem_cons_of_mem _ h2⟩
      · intro ⟨h1, h2⟩
        rcases List.mem_cons.mp h2 with h3 | h3
        · exact Or.inl h3
        · by_cases hak : k = a
          · exact Or.inl hak
          · exact Or.inr ⟨fun hc => (by
              rcases List.mem_cons.mp hc with h4 | h4
              · exact hak h4
              · exact h1 h4), h3⟩

theorem mem_dedupKeys (k : String) (l : List String) : k ∈ dedupKeys l ↔ k ∈ l := by
  rw [dedupKeys, mem_dedupGo]
  simp

theorem nodup_dedupGo : ∀ (l seen : List String), (dedupGo seen l).Nodup := by
  intro l
  induction l with
  | nil => simp [dedupGo]
  | cons a t ih =>
    intro seen
    rw [dedupGo]
    by_cases ha : seen.contains a
    · rw [if_pos ha]
      exact ih seen
    · rw [if_neg ha, List.nodup_cons]
      refine ⟨fun hc => ?_, ih (a :: seen)⟩
      exact ((mem_dedupGo a t (a :: seen)).mp hc).1 (List.mem_cons_self a seen)

theorem nodup_dedupKeys (l : List String) : (dedupKeys l).Nodup :=
  nodup_dedupGo l []

theorem dedupGo_append_single (k : String) : ∀ (l seen : List String),
    dedupGo seen (l ++ [k]) =
      dedupGo seen l ++ (if k ∈ seen ∨ k ∈ l then [] else [k]) := by
  intro l
  induction l with
  | nil =>
    intro seen
    rw [List.nil_append, dedupGo, dedupGo]
    by_cases hk : k ∈ seen
    · rw [if_pos (by simpa using hk), if_pos (Or.inl hk)]
      rfl
    · rw [if_neg (by simpa using hk), if_neg (by simp [hk])]
      rfl
  | cons a t ih =>
    intro seen
    rw [List.cons_append, dedupGo, dedupGo]
    by_cases ha : seen.contains a
    · rw [if_pos ha, if_pos ha, ih]
      congr 1
      by_cases hks : k ∈ seen
      · rw [if_pos (Or.inl hks), if_pos (Or.inl hks)]
      · by_cases hkt : k ∈ t
        · rw [if_pos (Or.inr hkt), if_pos (Or.inr (List.mem_cons_of_mem _ hkt))]
        · by_cases hka : k = a
          · rw [if_neg (by simp [hks, hkt]), if_pos (Or.inr (by simp [hka]))]
            exact absurd (by simpa using ha) (by rw [← hka]; exact hks)
          · rw [if_neg (by simp [hks, hkt]), if_neg (by simp [hks, hkt, hka])]
    · rw [if_neg ha, if_neg ha, ih, List.cons_append]
      congr 2
      by_cases hka : k = a
      · rw [if_pos (Or.inl (by simp [hka])), if_pos (Or.inr (by simp [hka]))]
      · by_cases hks : k ∈ seen
        · rw [if_pos (Or.inl (List.mem_cons_of_mem _ hks)), if_pos (Or.inl hks)]
        · by_cases hkt : k ∈ t
          · rw [if_pos (Or.inr hkt), if_pos (Or.inr (List.mem_cons_of_mem _ hkt))]
          · rw [if_neg (by simp [hka, hks, hkt]), if_neg (by simp [hka, hks, hkt])]

theorem keys_map_pair {α : Type} (ks : List String) (F : String → α) :
    PyDict.keys (ks.map (fun k => (k, F k))) = ks := by
  rw [PyDict.keys, List.map_map]
  conv_rhs => rw [← List.map_id ks]
  exact List.map_congr_left (fun x _ => rfl)

theorem modify_map_pair {α : Type} (F : String → α) (key : String) (f : α → α) :
    ∀ ks : List String, ks.Nodup →
      PyDict.modify (ks.map (fun k => (k, F k))) key f =
        ks.map (fun k => (k, if k = key then f (F k) else F k)) := by
  intro ks
  induction ks with
  | nil => intro _; rfl
  | cons a t ih =>
    intro hnd
    rw [List.nodup_cons] at hnd
    rw [List.map_cons, List.map_cons, PyDict.modify]
    by_cases ha : a = key
    · rw [if_pos ha, if_pos ha]
      congr 1
      apply (List.map_congr_left ?_).symm
      intro x hx
      have : x ≠ key := fun hxk => hnd.1 (by rw [← ha] at hxk; exact hxk ▸ hx)
      rw [if_neg this]
    · rw [if_neg ha, if_neg ha, ih hnd.2]

theorem modify_append_fresh {α : Type} {d : PyDict α} {k : String} (v : α) (f : α → α)
    (h : k ∉ PyDict.keys d) :
    PyDict.modify (d ++ [(k, v)]) k f = d ++ [(k, f v)] := by
  induction d with
  | nil => simp [PyDict.modify]
  | cons p t ih =>
    simp only [PyDict.keys, List.map_cons, List.mem_cons] at h
    push_neg at h
    rw [List.cons_append, PyDict.modify, if_neg (Ne.symm h.1), ih h.2]
    rfl

theorem filter_key_eq_nil {k : String} {ds : List DiffEntry}
    (h : k ∉ ds.map DiffEntry.key) : ds.filter (fun e => e.key == k) = [] := by
  rw [List.filter_eq_nil_iff]
  intro e he
  simp only [beq_iff_eq]
  intro hek
  exact h (hek ▸ List.mem_map_of_mem DiffEntry.key he)


theorem dedupKeys_append_single (L : List String) (k : String) :
    dedupKeys (L ++ [k]) = dedupKeys L ++ (if k ∈ L then [] else [k]) := by
  rw [dedupKeys, dedupKeys, dedupGo_append_single]
  congr 1
  by_cases hk : k ∈ L <;> simp [hk]

/-- The grouping fold of write_report, characterised: after folding a
diff list, the grouped dict holds one binding per distinct key in
first-appearance order, whose description list renders that key's
entries in order (auxiliary values still empty). -/
theorem write_fold_spec (html_fields : List String) : ∀ ds : List DiffEntry,
    ds.foldl (fun g d =>
      PyDict.modify (if PyDict.contains g d.key then g else PyDict.insert g d.key ⟨[], ""⟩)
        d.key (fun gi => ⟨gi.diffs ++ [renderDiff html_fields d], gi.product_websites⟩)) [] =
    (dedupKeys (ds.map DiffEntry.key)).map (fun k =>
      (k, GroupInfo.mk ((ds.filter (fun e => e.key == k)).map (renderDiff html_fields)) "")) := by
  intro ds
  induction ds using List.reverseRecOn with
  | nil => rfl
  | append_singleton ds d ih =>
    rw [List.foldl_append, ih, List.foldl_cons, List.foldl_nil,
      List.map_append, List.map_cons, List.map_nil, dedupKeys_append_single]
    by_cases hk : d.key ∈ ds.map DiffEntry.key
    · rw [if_pos hk, List.append_nil]
      have hmemk : d.key ∈ PyDict.keys ((dedupKeys (ds.map DiffEntry.key)).map (fun k =>
          (k, GroupInfo.mk ((ds.filter (fun e => e.key == k)).map (renderDiff html_fields))
            ""))) := by
        rw [keys_map_pair, mem_dedupKeys]
        exact hk
      have hcont := (PyDict.contains_iff_mem_keys _ _).mpr hmemk
      rw [if_pos hcont, modify_map_pair _ _ _ _ (nodup_dedupKeys _)]
      apply List.map_congr_left
      intro k hkmem
      by_cases hkd : k = d.key
      · rw [if_pos hkd, List.filter_append]
        have hfd : [d].filter (fun e => e.key == k) = [d] := by
          simp [hkd]
        rw [hfd, List.map_append, List.map_cons, List.map_nil]
      · rw [if_neg hkd, List.filter_append]
        have hfd : [d].filter (fun e => e.key == k) = [] := by
          simp
          exact fun hc => absurd hc.symm hkd
        rw [hfd, List.append_nil]
    · rw [if_neg hk]
      have hmemk : d.key ∉ PyDict.keys ((dedupKeys (ds.map DiffEntry.key)).map (fun k =>
          (k, GroupInfo.mk ((ds.filter (fun e => e.key == k)).map (renderDiff html_fields))
            ""))) := by
        rw [keys_map_pair, mem_dedupKeys]
        exact hk
      have hcont : ¬ PyDict.contains ((dedupKeys (ds.map DiffEntry.key)).map (fun k =>
          (k, GroupInfo.mk ((ds.filter (fun e => e.key == k)).map (renderDiff html_fields))
            ""))) d.key = true := by
        rw [PyDict.contains_iff_mem_keys]
        exact hmemk
      rw [if_neg hcont, PyDict.insert_fresh _ hmemk, modify_append_fresh _ _ hmemk,
        List.map_append, List.map_cons, List.map_nil]
      congr 1
      · apply List.map_congr_left
        intro k hkmem
        have hkd : k ≠ d.key := by
          intro hc
          rw [mem_dedupKeys] at hkmem
          exact hk (hc ▸ hkmem)
        rw [List.filter_append]
        have hfd : [d].filter (fun e => e.key == k) = [] := by
          simp
          exact fun hc => absurd hc.symm hkd
        rw [hfd, List.append_nil]
      · rw [List.filter_append, filter_key_eq_nil hk, List.nil_append]
        have hfd : [d].filter (fun e => e.key == d.key) = [d] := by
          simp
        rw [hfd]
        simp

/-- C8 amended: the written report is the fixed header and one row per
distinct key in first-appearance order; a row holds the key, the
staging record's product_websites value, and that key's rendered
descriptions joined with a semicolon and space; missing_in_production
and extra_in_production render as the fixed literal tokens and every
other entry as the bracketed staging-to-production form, with both
values markup-escaped exactly when some configured name equals the
field or, extended with a colon, is a prefix of the field. -/
theorem write_report_structured (diffs : List DiffEntry) (html_fields : List String)
    (staging_data : Catalog) (key_field : String) (hne : diffs ≠ []) :
    write_report diffs html_fields staging_data key_field =
      some { header := [key_field, "product_websites", "differences"],
             rows := (dedupKeys (diffs.map DiffEntry.key)).map (fun k =>
               (k, pwOf staging_data k,
                String.intercalate "; " ((diffs.filter (fun e => e.key == k)).map
                  (renderDiff html_fields)))) } := by
  simp only [write_report, if_neg hne]
  rw [write_fold_spec]
  rw [List.map_map, List.map_map]
  congr 1

/-- Witness for the report-writer claim at a concrete diff sequence. -/
theorem write_report_structured_witness :
    write_report [⟨"A", "different_value", "name", "x", "y"⟩] [] [] "sku" =
      some { header := ["sku", "product_websites", "differences"],
             rows := (dedupKeys ([(⟨"A", "different_value", "name", "x", "y"⟩ :
               DiffEntry)].map DiffEntry.key)).map (fun k =>
                 (k, pwOf [] k,
                  String.intercalate "; " (([(⟨"A", "different_value", "name", "x", "y"⟩ :
                    DiffEntry)].filter (fun e => e.key == k)).map (renderDiff [])))) } :=
  write_report_structured [⟨"A", "different_value", "name", "x", "y"⟩] [] [] "sku"
    (by decide)


/-! ## C5: keys stored by the loader -/

/-- C5 counterexample: a row whose key-column value is a single space is
not skipped (the raw value is truthy), and its key is stored trimmed,
which leaves the empty string as a stored key. -/
theorem load_csv_blank_key_counterexample :
    "" ∈ PyDict.keys (load_csv "sku,name\n ,x" ',' "additional_attributes" "sku") := by
  decide

/-- A fold invariant on the keys of a dictionary accumulator. -/
theorem foldl_keys_invariant {γ α : Type} (P : String → Prop)
    (step : PyDict α → γ → PyDict α)
    (hstep : ∀ d x k, k ∈ PyDict.keys (step d x) → k ∈ PyDict.keys d ∨ P k) :
    ∀ (l : List γ) (init : PyDict α), (∀ k ∈ PyDict.keys init, P k) →
      ∀ k ∈ PyDict.keys (l.foldl step init), P k := by
  intro l
  induction l with
  | nil => exact fun init h0 => h0
  | cons x t ih =>
    intro init h0 k hk
    refine ih (step init x) ?_ k hk
    intro k' hk'
    rcases hstep init x k' hk' with h | h
    · exact h0 k' h
    · exact h

/-- C5 amended: every key the loader stores is the trimmed form of a
non-empty raw key-column value (rows with an empty or absent key value
are skipped; a whitespace-only raw value trims to the empty stored
key); and every diff entry's key belongs to one of the two compared
catalogs, so no entry is ever produced for a skipped row. -/
theorem load_csv_keys_and_diff_keys :
    (∀ (content : String) (delimiter : Char) (special_field key_field k : String),
      k ∈ PyDict.keys (load_csv content delimiter special_field key_field) →
      ∃ raw, raw ≠ "" ∧ k = pyStrip raw) ∧
    (∀ (unescape : String → String) (staging production : Catalog)
        (ignore_fields : List String) (special_field attr_separator : String)
        (exclude : List String) (key_field : String),
      ∀ e ∈ compare_catalogs unescape staging production ignore_fields special_field
          attr_separator exclude key_field,
        e.key ∈ PyDict.keys staging ∨ e.key ∈ PyDict.keys production) := by
  constructor
  · intro content delimiter special_field key_field k hk
    rw [load_csv] at hk
    split at hk
    · simp [PyDict.keys] at hk
    · refine foldl_keys_invariant (fun k => ∃ raw, raw ≠ "" ∧ k = pyStrip raw) _ ?_ _ _
        (by simp [PyDict.keys]) k hk
      intro d row k' hk'
      rcases hget : PyDict.get? row.dict key_field with - | ov
      · simp only [hget] at hk'
        exact Or.inl hk'
      · rcases ov with - | kv
        · simp only [hget] at hk'
          exact Or.inl hk'
        · simp only [hget] at hk'
          by_cases hkv : kv = ""
          · rw [if_pos hkv] at hk'
            exact Or.inl hk'
          · rw [if_neg hkv] at hk'
            simp only [PyDict.keys_insert] at hk'
            split_ifs at hk' with hmem
            · exact Or.inl hk'
            · rcases List.mem_append.mp hk' with h | h
              · exact Or.inl h
              · rcases List.mem_singleton.mp h with rfl
                exact Or.inr ⟨kv, hkv, rfl⟩
  · intro unescape staging production ignore_fields special_field attr_separator
      exclude key_field e he
    rw [compare_catalogs_structured] at he
    rcases List.mem_append.mp he with he | he
    · rcases List.mem_flatMap.mp he with ⟨p, hp, hpe⟩
      rw [key_of_mem_keyEntries hpe]
      exact Or.inl (List.mem_map_of_mem Prod.fst hp)
    · rcases List.mem_flatMap.mp he with ⟨p, hp, hpe⟩
      rw [key_of_mem_extraEntries hpe]
      exact Or.inr (List.mem_map_of_mem Prod.fst hp)

/-- Witness for the loader-key claim at a concrete document. -/
theorem load_csv_keys_and_diff_keys_witness :
    ∃ raw, raw ≠ "" ∧ "a" = pyStrip raw :=
  load_csv_keys_and_diff_keys.1 "sku,name\na,x" ',' "additional_attributes" "sku" "a"
    (by decide)


/-! ## C1: the loader round trip

The claim quantifies over delimited documents and their rows' original
values; to state it, a document is serialised from abstract rows: a
two-column header, then one line per row holding the key and the
special value wrapped in one layer of double quotes (the quoting that
lets the special value carry commas).  The delimiter is the comma, the
one whose placeholder protection exists in the source. -/

/-- A document serialised from abstract rows: header line, then one
line per row with the special value in double quotes. -/
def mkDoc (key_field special_field : String) (rows : List (String × String)) : String :=
  rows.foldl (fun acc p => acc ++ "\n" ++ p.1 ++ ",\"" ++ p.2 ++ "\"")
    (key_field ++ "," ++ special_field)

/-- A column name the family admits: non-empty, free of the delimiter,
of both quote characters and of line breaks. -/
def goodName (s : String) : Prop :=
  s ≠ "" ∧ ∀ c ∈ s.data, c ≠ ',' ∧ c ≠ dquote ∧ c ≠ squote ∧ isLineBreak c = false

/-- A key the family admits: a good name that is already trimmed. -/
def goodKey (s : String) : Prop :=
  goodName s ∧ pyStrip s = s

/-- A special value the family admits: free of both quote characters,
of line breaks (washed out by splitlines before the csv reader ever
runs), and of the placeholder opener.  Commas and the section-marker
sequence are allowed; this is what the placeholder protection is for. -/
def goodVal (s : String) : Prop :=
  ∀ c ∈ s.data, c ≠ dquote ∧ c ≠ squote ∧ c ≠ '<' ∧ isLineBreak c = false

instance goodName.instDecidable (s : String) : Decidable (goodName s) := by
  unfold goodName
  infer_instance

instance goodKey.instDecidable (s : String) : Decidable (goodKey s) := by
  unfold goodKey
  infer_instance

instance goodVal.instDecidable (s : String) : Decidable (goodVal s) := by
  unfold goodVal
  infer_instance

/-- C1 counterexample: the special value of the single row of this
document contains a double quote (and a comma after it).  The loader's
quote-aware scan splits the line at that comma because the quote
toggled the quote state, the csv reader then drops the quote by its
doubling rule, and the stored special value is the mangled ab with the
overflow cell spilled into the rest list: the row neither holds exactly
the header's fields nor preserves the original value.  The claim fails
for values containing quote characters. -/
theorem load_csv_roundtrip_counterexample :
    PyDict.get? (load_csv (mkDoc "sku" "aa" [("A", "a\"b,c")]) ',' "aa" "sku") "A" =
      some ⟨[("sku", some "A"), ("aa", some "ab")], ["c\""]⟩ ∧
    ("ab" : String) ≠ "a\"b,c" := by
  exact ⟨by decide, by decide⟩


/-! ## Pushing the placeholder replacements through block structure -/

theorem sm_data : SECTION_MARKER.data = ['Â', '§'] := rfl

theorem isPrefixOf_self_append (l Y : List Char) : l.isPrefixOf (l ++ Y) = true := by
  induction l with
  | nil => cases Y <;> rfl
  | cons a t ih =>
    show (a == a && t.isPrefixOf (t ++ Y)) = true
    simp [ih]

theorem replace_match (pat repl X : List Char) (hne : pat ≠ []) :
    replaceL pat repl (pat ++ X) = repl ++ replaceL pat repl X := by
  cases pat with
  | nil => exact absurd rfl hne
  | cons p0 pt =>
    rw [List.cons_append, replaceL_cons, if_pos ⟨hne, isPrefixOf_self_append (p0 :: pt) X⟩]
    congr 1
    rw [show (p0 :: pt).length - 1 = pt.length from by simp, List.drop_left]

theorem isPrefixOf_cons_ne {p0 t0 : Char} (ps ts : List Char) (h : p0 ≠ t0) :
    (p0 :: ps).isPrefixOf (t0 :: ts) = false := by
  show (p0 == t0 && ps.isPrefixOf ts) = false
  simp [h]

theorem isPrefixOf_false_of_mismatch : ∀ (p t Y : List Char) (j : Nat)
    (hp : j < p.length) (ht : j < t.length),
    p.get ⟨j, hp⟩ ≠ t.get ⟨j, ht⟩ → p.isPrefixOf (t ++ Y) = false := by
  intro p
  induction p with
  | nil =>
    intro t Y j hp
    simp at hp
  | cons p0 ps ih =>
    intro t Y j hp ht hne
    cases t with
    | nil => simp at ht
    | cons t0 ts =>
      cases j with
      | zero => exact isPrefixOf_cons_ne _ _ hne
      | succ j2 =>
        show (p0 == t0 && ps.isPrefixOf (ts ++ Y)) = false
        rw [ih ts Y j2 (by simpa using hp) (by simpa using ht) hne]
        simp

theorem replace_skip_heads (pat repl : List Char) (p0 : Char) (hp : pat.head? = some p0) :
    ∀ (B X : List Char), (∀ c ∈ B, c ≠ p0) →
      replaceL pat repl (B ++ X) = B ++ replaceL pat repl X := by
  intro B
  induction B with
  | nil => intro X _; rfl
  | cons b B2 ih =>
    intro X h
    cases pat with
    | nil => simp at hp
    | cons q0 qt =>
      simp only [List.head?_cons, Option.some.injEq] at hp
      rw [List.cons_append, replaceL_cons, if_neg ?hno,
        ih X (fun c hc => h c (List.mem_cons_of_mem _ hc)), List.cons_append]
      case hno =>
        intro hcon
        have hb : q0 ≠ b := by
          rw [hp]
          exact Ne.symm (h b (List.mem_cons_self b B2))
        rw [isPrefixOf_cons_ne _ _ hb] at hcon
        simp at hcon

theorem replace_skip_offsets (pat repl : List Char) :
    ∀ (B : List Char), (∀ i, i < B.length → ∀ Y, pat.isPrefixOf (B.drop i ++ Y) = false) →
      ∀ X, replaceL pat repl (B ++ X) = B ++ replaceL pat repl X := by
  intro B
  induction B with
  | nil => intro _ X; rfl
  | cons b B2 ih =>
    intro h X
    have hrec : ∀ i, i < B2.length → ∀ Y, pat.isPrefixOf (B2.drop i ++ Y) = false := by
      intro i hi Y
      have := h (i + 1) (by simpa using Nat.succ_lt_succ hi) Y
      simpa using this
    rw [List.cons_append, replaceL_cons, if_neg ?hno, ih hrec X, List.cons_append]
    case hno =>
      intro hcon
      have h0 : pat.isPrefixOf (b :: (B2 ++ X)) = false := h 0 (by simp) X
      rw [h0] at hcon
      simp at hcon

theorem pc_noenter_pn : ∀ i, i < PLACEHOLDER_NEWLINE.data.length → ∀ Y,
    PLACEHOLDER_COMMA.data.isPrefixOf (PLACEHOLDER_NEWLINE.data.drop i ++ Y) = false := by
  intro i hi Y
  have hlen : PLACEHOLDER_NEWLINE.data.length = 13 := rfl
  rw [hlen] at hi
  interval_cases i <;>
    first
      | exact isPrefixOf_false_of_mismatch _ _ Y 0 (by decide) (by decide) (by decide)
      | exact isPrefixOf_false_of_mismatch _ _ Y 1 (by decide) (by decide) (by decide)
      | exact isPrefixOf_false_of_mismatch _ _ Y 2 (by decide) (by decide) (by decide)
      | exact isPrefixOf_false_of_mismatch _ _ Y 3 (by decide) (by decide) (by decide)

theorem pc_noenter_ps : ∀ i, i < PLACEHOLDER_SECTION.data.length → ∀ Y,
    PLACEHOLDER_COMMA.data.isPrefixOf (PLACEHOLDER_SECTION.data.drop i ++ Y) = false := by
  intro i hi Y
  have hlen : PLACEHOLDER_SECTION.data.length = 13 := rfl
  rw [hlen] at hi
  interval_cases i <;>
    first
      | exact isPrefixOf_false_of_mismatch _ _ Y 0 (by decide) (by decide) (by decide)
      | exact isPrefixOf_false_of_mismatch _ _ Y 1 (by decide) (by decide) (by decide)
      | exact isPrefixOf_false_of_mismatch _ _ Y 2 (by decide) (by decide) (by decide)
      | exact isPrefixOf_false_of_mismatch _ _ Y 3 (by decide) (by decide) (by decide)

theorem pn_noenter_ps : ∀ i, i < PLACEHOLDER_SECTION.data.length → ∀ Y,
    PLACEHOLDER_NEWLINE.data.isPrefixOf (PLACEHOLDER_SECTION.data.drop i ++ Y) = false := by
  intro i hi Y
  have hlen : PLACEHOLDER_SECTION.data.length = 13 := rfl
  rw [hlen] at hi
  interval_cases i <;>
    first
      | exact isPrefixOf_false_of_mismatch _ _ Y 0 (by decide) (by decide) (by decide)
      | exact isPrefixOf_false_of_mismatch _ _ Y 1 (by decide) (by decide) (by decide)
      | exact isPrefixOf_false_of_mismatch _ _ Y 2 (by decide) (by decide) (by decide)
      | exact isPrefixOf_false_of_mismatch _ _ Y 3 (by decide) (by decide) (by decide)

theorem replace_two_no_match (a b : Char) (repl : List Char) (x : Char) (rest : List Char)
    (h : x ≠ a ∨ ∀ r2, rest ≠ b :: r2) :
    replaceL [a, b] repl (x :: rest) = x :: replaceL [a, b] repl rest := by
  rw [replaceL_cons, if_neg ?_]
  intro hcon
  have hp2 : (a == x && List.isPrefixOf [b] rest) = true := hcon.2
  rcases (Bool.and_eq_true _ _).mp hp2 with ⟨hax, hbrest⟩
  rcases h with h | h
  · exact h (eq_of_beq hax).symm
  · cases rest with
    | nil =>
      have hfalse : (false = true) := hbrest
      simp at hfalse
    | cons r0 r2 =>
      have hb2 : (b == r0 && ([] : List Char).isPrefixOf r2) = true := hbrest
      have hbr0 : b = r0 := eq_of_beq ((Bool.and_eq_true _ _).mp hb2).1
      exact h r2 (by rw [hbr0])


/-! ## Structural action of the protect and restore passes -/

/-- The first three replacements of the protect chain (comma and the two
line-break substitutions), before the section-marker pass. -/
def chain3 (l : List Char) : List Char :=
  replaceL ['\r'] PLACEHOLDER_NEWLINE.data
    (replaceL ['\n'] PLACEHOLDER_NEWLINE.data
      (replaceL [','] PLACEHOLDER_COMMA.data l))

theorem protectL_eq (l : List Char) :
    protectL l = replaceL SECTION_MARKER.data PLACEHOLDER_SECTION.data (chain3 l) := rfl

/-- Image of a single character under the first three protect passes. -/
def g123 (d : Char) : List Char :=
  if d = ',' then PLACEHOLDER_COMMA.data
  else if d = '\n' then PLACEHOLDER_NEWLINE.data
  else if d = '\r' then PLACEHOLDER_NEWLINE.data
  else [d]

theorem chain3_nil : chain3 [] = [] := rfl

theorem chain3_cons (d : Char) (t : List Char) :
    chain3 (d :: t) = g123 d ++ chain3 t := by
  by_cases h1 : d = ','
  · subst h1
    show replaceL ['\r'] PLACEHOLDER_NEWLINE.data (replaceL ['\n'] PLACEHOLDER_NEWLINE.data
      (replaceL [','] PLACEHOLDER_COMMA.data (',' :: t))) = g123 ',' ++ chain3 t
    rw [show (',' :: t) = [','] ++ t from rfl,
      replace_match [','] PLACEHOLDER_COMMA.data t (by decide),
      replace_skip_heads ['\n'] PLACEHOLDER_NEWLINE.data '\n' rfl PLACEHOLDER_COMMA.data _ (by decide),
      replace_skip_heads ['\r'] PLACEHOLDER_NEWLINE.data '\r' rfl PLACEHOLDER_COMMA.data _ (by decide),
      show g123 ',' = PLACEHOLDER_COMMA.data from rfl]
    rfl
  · by_cases h2 : d = '\n'
    · subst h2
      show replaceL ['\r'] PLACEHOLDER_NEWLINE.data (replaceL ['\n'] PLACEHOLDER_NEWLINE.data
        (replaceL [','] PLACEHOLDER_COMMA.data ('\n' :: t))) = g123 '\n' ++ chain3 t
      rw [show ('\n' :: t) = ['\n'] ++ t from rfl,
        replace_skip_heads [','] PLACEHOLDER_COMMA.data ',' rfl ['\n'] t (by decide),
        replace_match ['\n'] PLACEHOLDER_NEWLINE.data _ (by decide),
        replace_skip_heads ['\r'] PLACEHOLDER_NEWLINE.data '\r' rfl PLACEHOLDER_NEWLINE.data _ (by decide),
        show g123 '\n' = PLACEHOLDER_NEWLINE.data from rfl]
      rfl
    · by_cases h3 : d = '\r'
      · subst h3
        show replaceL ['\r'] PLACEHOLDER_NEWLINE.data (replaceL ['\n'] PLACEHOLDER_NEWLINE.data
          (replaceL [','] PLACEHOLDER_COMMA.data ('\r' :: t))) = g123 '\r' ++ chain3 t
        rw [show ('\r' :: t) = ['\r'] ++ t from rfl,
          replace_skip_heads [','] PLACEHOLDER_COMMA.data ',' rfl ['\r'] t (by decide),
          replace_skip_heads ['\n'] PLACEHOLDER_NEWLINE.data '\n' rfl ['\r'] _ (by decide),
          replace_match ['\r'] PLACEHOLDER_NEWLINE.data _ (by decide),
          show g123 '\r' = PLACEHOLDER_NEWLINE.data from rfl]
        rfl
      · have hone : ∀ p0 : Char, d ≠ p0 → ∀ c ∈ [d], c ≠ p0 := by
          intro p0 hp c hc
          rw [List.mem_singleton] at hc
          subst hc
          exact hp
        show replaceL ['\r'] PLACEHOLDER_NEWLINE.data (replaceL ['\n'] PLACEHOLDER_NEWLINE.data
          (replaceL [','] PLACEHOLDER_COMMA.data (d :: t))) = g123 d ++ chain3 t
        rw [show (d :: t) = [d] ++ t from rfl,
          replace_skip_heads [','] PLACEHOLDER_COMMA.data ',' rfl [d] t (hone ',' h1),
          replace_skip_heads ['\n'] PLACEHOLDER_NEWLINE.data '\n' rfl [d] _ (hone '\n' h2),
          replace_skip_heads ['\r'] PLACEHOLDER_NEWLINE.data '\r' rfl [d] _ (hone '\r' h3),
          show g123 d = [d] from by simp [g123, h1, h2, h3]]
        rfl

theorem append_ne_cons (c0 : Char) (B X : List Char) (c : Char) (r : List Char)
    (h : c0 ≠ c) : (c0 :: B) ++ X ≠ c :: r := by
  intro hcon
  rw [List.cons_append] at hcon
  injection hcon with hh _
  exact h hh

theorem protect_nil : protectL [] = [] := rfl

theorem protect_comma (t : List Char) :
    protectL (',' :: t) = PLACEHOLDER_COMMA.data ++ protectL t := by
  rw [protectL_eq, protectL_eq, chain3_cons, show g123 ',' = PLACEHOLDER_COMMA.data from rfl]
  exact replace_skip_heads SECTION_MARKER.data PLACEHOLDER_SECTION.data 'Â' rfl
    PLACEHOLDER_COMMA.data _ (by decide)

theorem protect_nl (t : List Char) :
    protectL ('\n' :: t) = PLACEHOLDER_NEWLINE.data ++ protectL t := by
  rw [protectL_eq, protectL_eq, chain3_cons, show g123 '\n' = PLACEHOLDER_NEWLINE.data from rfl]
  exact replace_skip_heads SECTION_MARKER.data PLACEHOLDER_SECTION.data 'Â' rfl
    PLACEHOLDER_NEWLINE.data _ (by decide)

theorem protect_cr (t : List Char) :
    protectL ('\r' :: t) = PLACEHOLDER_NEWLINE.data ++ protectL t := by
  rw [protectL_eq, protectL_eq, chain3_cons, show g123 '\r' = PLACEHOLDER_NEWLINE.data from rfl]
  exact replace_skip_heads SECTION_MARKER.data PLACEHOLDER_SECTION.data 'Â' rfl
    PLACEHOLDER_NEWLINE.data _ (by decide)

theorem protect_sm (t : List Char) :
    protectL ('Â' :: '§' :: t) = PLACEHOLDER_SECTION.data ++ protectL t := by
  rw [protectL_eq, protectL_eq, chain3_cons, chain3_cons,
    show g123 'Â' = ['Â'] from rfl, show g123 '§' = ['§'] from rfl,
    show (['Â'] ++ (['§'] ++ chain3 t) : List Char) = SECTION_MARKER.data ++ chain3 t from rfl]
  exact replace_match _ _ _ (by decide)

theorem protect_raw (c : Char) (t : List Char) (h1 : c ≠ ',') (h2 : c ≠ '\n')
    (h3 : c ≠ '\r') (h4 : c ≠ 'Â') :
    protectL (c :: t) = c :: protectL t := by
  rw [protectL_eq, protectL_eq, chain3_cons,
    show g123 c = [c] from by simp [g123, h1, h2, h3]]
  rw [replace_skip_heads SECTION_MARKER.data PLACEHOLDER_SECTION.data 'Â' rfl [c] (chain3 t)
    (by intro x hx; rw [List.mem_singleton] at hx; subst hx; exact h4), List.singleton_append]

theorem protect_A (t : List Char) (h : ∀ t2, t ≠ '§' :: t2) :
    protectL ('Â' :: t) = 'Â' :: protectL t := by
  have hkey : ∀ r2, chain3 t ≠ '§' :: r2 := by
    cases t with
    | nil =>
      intro r2 hc
      rw [chain3_nil] at hc
      exact List.noConfusion hc
    | cons d t2 =>
      intro r2 hc
      rw [chain3_cons] at hc
      by_cases h1 : d = ','
      · subst h1
        rw [show g123 ',' = PLACEHOLDER_COMMA.data from rfl] at hc
        exact absurd hc (append_ne_cons '<' _ _ '§' r2 (by decide))
      · by_cases h2 : d = '\n'
        · subst h2
          rw [show g123 '\n' = PLACEHOLDER_NEWLINE.data from rfl] at hc
          exact absurd hc (append_ne_cons '<' _ _ '§' r2 (by decide))
        · by_cases h3 : d = '\r'
          · subst h3
            rw [show g123 '\r' = PLACEHOLDER_NEWLINE.data from rfl] at hc
            exact absurd hc (append_ne_cons '<' _ _ '§' r2 (by decide))
          · have hd : d ≠ '§' := fun hc2 => h t2 (by rw [hc2])
            rw [show g123 d = [d] from by simp [g123, h1, h2, h3]] at hc
            exact absurd hc (append_ne_cons d _ _ '§' r2 hd)
  rw [protectL_eq, protectL_eq, chain3_cons, show g123 'Â' = ['Â'] from rfl,
    List.singleton_append, sm_data,
    replace_two_no_match 'Â' '§' PLACEHOLDER_SECTION.data 'Â' (chain3 t) (Or.inr hkey)]

theorem restore_nil : restoreSpecialL [] = [] := rfl

theorem restore_pc (Y : List Char) :
    restoreSpecialL (PLACEHOLDER_COMMA.data ++ Y) = ',' :: restoreSpecialL Y := by
  unfold restoreSpecialL
  rw [replace_match PLACEHOLDER_COMMA.data [','] Y (by decide),
    replace_skip_heads PLACEHOLDER_NEWLINE.data ['\n'] '<' rfl [','] _ (by decide),
    replace_skip_heads PLACEHOLDER_SECTION.data SECTION_MARKER.data '<' rfl [','] _ (by decide),
    List.singleton_append]

theorem restore_pn (Y : List Char) :
    restoreSpecialL (PLACEHOLDER_NEWLINE.data ++ Y) = '\n' :: restoreSpecialL Y := by
  unfold restoreSpecialL
  rw [replace_skip_offsets PLACEHOLDER_COMMA.data [','] PLACEHOLDER_NEWLINE.data pc_noenter_pn Y,
    replace_match PLACEHOLDER_NEWLINE.data ['\n'] _ (by decide),
    replace_skip_heads PLACEHOLDER_SECTION.data SECTION_MARKER.data '<' rfl ['\n'] _ (by decide),
    List.singleton_append]

theorem restore_ps (Y : List Char) :
    restoreSpecialL (PLACEHOLDER_SECTION.data ++ Y) = 'Â' :: '§' :: restoreSpecialL Y := by
  unfold restoreSpecialL
  rw [replace_skip_offsets PLACEHOLDER_COMMA.data [','] PLACEHOLDER_SECTION.data pc_noenter_ps Y,
    replace_skip_offsets PLACEHOLDER_NEWLINE.data ['\n'] PLACEHOLDER_SECTION.data pn_noenter_ps _,
    replace_match PLACEHOLDER_SECTION.data SECTION_MARKER.data _ (by decide)]
  rfl

theorem restore_raw (c : Char) (t : List Char) (h : c ≠ '<') :
    restoreSpecialL (c :: t) = c :: restoreSpecialL t := by
  have hone : ∀ x ∈ [c], x ≠ '<' := by
    intro x hx
    rw [List.mem_singleton] at hx
    subst hx
    exact h
  unfold restoreSpecialL
  rw [show (c :: t) = [c] ++ t from rfl,
    replace_skip_heads PLACEHOLDER_COMMA.data [','] '<' rfl [c] t hone,
    replace_skip_heads PLACEHOLDER_NEWLINE.data ['\n'] '<' rfl [c] _ hone,
    replace_skip_heads PLACEHOLDER_SECTION.data SECTION_MARKER.data '<' rfl [c] _ hone,
    List.singleton_append]

/-- Restoring after protecting is the identity on values free of the
placeholder opener and of carriage returns. -/
theorem restore_protect : ∀ (n : Nat) (l : List Char), l.length ≤ n →
    (∀ c ∈ l, c ≠ '<' ∧ c ≠ '\r') → restoreSpecialL (protectL l) = l := by
  intro n
  induction n with
  | zero =>
    intro l hl _
    have hnil : l = [] := List.eq_nil_of_length_eq_zero (Nat.le_zero.mp hl)
    subst hnil
    rfl
  | succ n ih =>
    intro l hl h
    cases l with
    | nil => rfl
    | cons d t =>
      have hlen : t.length ≤ n := by
        simp only [List.length_cons] at hl
        omega
      have hmem : ∀ c ∈ t, c ≠ '<' ∧ c ≠ '\r' :=
        fun c hc => h c (List.mem_cons_of_mem _ hc)
      by_cases h1 : d = ','
      · subst h1
        rw [protect_comma, restore_pc, ih t hlen hmem]
      · by_cases h2 : d = '\n'
        · subst h2
          rw [protect_nl, restore_pn, ih t hlen hmem]
        · have h3 : d ≠ '\r' := (h d (List.mem_cons_self d t)).2
          by_cases h4 : d = 'Â'
          · subst h4
            cases t with
            | nil => decide
            | cons e t2 =>
              have hlen2 : t2.length ≤ n := by
                simp only [List.length_cons] at hl
                omega
              have hmem2 : ∀ c ∈ t2, c ≠ '<' ∧ c ≠ '\r' :=
                fun c hc => hmem c (List.mem_cons_of_mem _ hc)
              by_cases h5 : e = '§'
              · subst h5
                rw [protect_sm, restore_ps, ih t2 hlen2 hmem2]
              · rw [protect_A (e :: t2) (by intro t3 hc; injection hc with he _; exact h5 he),
                  restore_raw 'Â' _ (by decide), ih (e :: t2) hlen hmem]
          · rw [protect_raw d t h1 h2 h3 h4,
              restore_raw d _ (h d (List.mem_cons_self d t)).1, ih t hlen hmem]


/-! ## Stage A: the document splits into its lines -/

/-- The character content of one serialized data row of the family
document: key, delimiter, then the value wrapped in double quotes. -/
def rowBody (p : String × String) : List Char :=
  p.1.data ++ ',' :: '"' :: (p.2.data ++ ['"'])

theorem foldl_doc_data (rows : List (String × String)) : ∀ acc : String,
    (rows.foldl (fun a p => a ++ "\n" ++ p.1 ++ ",\"" ++ p.2 ++ "\"") acc).data =
      acc.data ++ (rows.map (fun p => '\n' :: rowBody p)).flatten := by
  induction rows with
  | nil =>
    intro acc
    simp
  | cons r rs ih =>
    intro acc
    rw [List.foldl_cons, ih]
    have h1 : ("\n" : String).data = ['\n'] := rfl
    have h2 : (",\"" : String).data = [',', '"'] := rfl
    have h3 : ("\"" : String).data = ['"'] := rfl
    simp [String.data_append, h1, h2, h3, rowBody, List.append_assoc]

theorem mkDoc_data (kf sf : String) (rows : List (String × String)) :
    (mkDoc kf sf rows).data =
      (kf.data ++ ',' :: sf.data) ++ (rows.map (fun p => '\n' :: rowBody p)).flatten := by
  rw [mkDoc, foldl_doc_data]
  have h1 : ("," : String).data = [','] := rfl
  simp [String.data_append, h1]

theorem splitlinesGo_cons_plain (c : Char) (cur t : List Char) (h : isLineBreak c = false) :
    splitlinesGo cur (c :: t) = splitlinesGo (c :: cur) t := by
  rw [splitlinesGo.eq_def]
  split
  · rename_i heq
    exact absurd heq (by simp)
  · rename_i t2 heq
    injection heq with hc ht
    subst hc
    exact absurd h (by decide)
  · rename_i c2 t2 hne heq
    injection heq with hc ht
    subst hc
    subst ht
    rw [if_neg (by rw [h]; exact Bool.false_ne_true)]

theorem splitlinesGo_nl (cur t : List Char) (hne : t ≠ []) :
    splitlinesGo cur ('\n' :: t) = cur.reverse :: splitlinesGo [] t := by
  rw [splitlinesGo.eq_def]
  split
  · rename_i heq
    exact absurd heq (by simp)
  · rename_i t2 heq
    injection heq with hc ht
    exact absurd hc.symm (by decide)
  · rename_i c2 t2 h2 heq
    injection heq with hc ht
    subst ht
    rw [← hc, if_pos (by decide), if_neg hne]

theorem splitlinesGo_plain : ∀ (A : List Char), (∀ c ∈ A, isLineBreak c = false) →
    ∀ cur r, splitlinesGo cur (A ++ r) = splitlinesGo (A.reverse ++ cur) r := by
  intro A
  induction A with
  | nil =>
    intro _ cur r
    simp
  | cons a A2 ih =>
    intro h cur r
    rw [List.cons_append, splitlinesGo_cons_plain a cur _ (h a (List.mem_cons_self a A2)),
      ih (fun c hc => h c (List.mem_cons_of_mem _ hc)) (a :: cur) r]
    simp [List.append_assoc]

theorem splitlinesGo_doc : ∀ (lines : List (List Char)),
    (∀ L ∈ lines, L ≠ [] ∧ ∀ c ∈ L, isLineBreak c = false) →
    ∀ cur, splitlinesGo cur ((lines.map (fun L => '\n' :: L)).flatten) = cur.reverse :: lines := by
  intro lines
  induction lines with
  | nil =>
    intro _ cur
    rfl
  | cons L ls ih =>
    intro h cur
    have hL := h L (List.mem_cons_self L ls)
    have hls : ∀ M ∈ ls, M ≠ [] ∧ ∀ c ∈ M, isLineBreak c = false :=
      fun M hM => h M (List.mem_cons_of_mem _ hM)
    rw [List.map_cons, List.flatten_cons, List.cons_append,
      splitlinesGo_nl cur _ (by
        intro hc
        rcases List.append_eq_nil.mp hc with ⟨hc1, _⟩
        exact hL.1 hc1),
      splitlinesGo_plain L hL.2 [] _, List.append_nil, ih hls L.reverse, List.reverse_reverse]

theorem pySplitlinesL_ne (l : List Char) (h : l ≠ []) :
    pySplitlinesL l = splitlinesGo [] l := by
  cases l with
  | nil => exact absurd rfl h
  | cons a t => rfl

theorem pySplitlinesL_doc (h0 : List Char) (lines : List (List Char))
    (hh2 : ∀ c ∈ h0, isLineBreak c = false)
    (hl : ∀ L ∈ lines, L ≠ [] ∧ ∀ c ∈ L, isLineBreak c = false) (hh : h0 ≠ []) :
    pySplitlinesL (h0 ++ (lines.map (fun L => '\n' :: L)).flatten) = h0 :: lines := by
  rw [pySplitlinesL_ne _ (by
      intro hc
      exact hh (List.append_eq_nil.mp hc).1),
    splitlinesGo_plain h0 hh2 [] _, List.append_nil, splitlinesGo_doc lines hl h0.reverse,
    List.reverse_reverse]

theorem pySplitlines_mkDoc (kf sf : String) (rows : List (String × String))
    (hkf : goodName kf) (hsf : goodName sf)
    (hrows : ∀ p ∈ rows, goodKey p.1 ∧ goodVal p.2) :
    pySplitlines (mkDoc kf sf rows) =
      String.mk (kf.data ++ ',' :: sf.data) :: rows.map (fun p => String.mk (rowBody p)) := by
  have hmaps : rows.map (fun p => '\n' :: rowBody p) =
      (rows.map rowBody).map (fun L => '\n' :: L) := by
    rw [List.map_map]
    rfl
  rw [pySplitlines, mkDoc_data, hmaps,
    pySplitlinesL_doc (kf.data ++ ',' :: sf.data) (rows.map rowBody) ?hplain ?hlines ?hne0]
  · rw [List.map_cons, List.map_map]
    rfl
  case hplain =>
    intro c hc
    rcases List.mem_append.mp hc with hc | hc
    · exact (hkf.2 c hc).2.2.2
    · rcases List.mem_cons.mp hc with hc | hc
      · subst hc
        decide
      · exact (hsf.2 c hc).2.2.2
  case hlines =>
    intro L hL
    rcases List.mem_map.mp hL with ⟨p, hp, hLeq⟩
    subst hLeq
    obtain ⟨hkey, hval⟩ := hrows p hp
    constructor
    · intro hc
      rcases List.append_eq_nil.mp hc with ⟨_, hc2⟩
      exact List.noConfusion hc2
    · intro c hc
      rcases List.mem_append.mp hc with hc | hc
      · exact (hkey.1.2 c hc).2.2.2
      · rcases List.mem_cons.mp hc with hc | hc
        · subst hc
          decide
        · rcases List.mem_cons.mp hc with hc | hc
          · subst hc
            decide
          · rcases List.mem_append.mp hc with hc | hc
            · exact (hval c hc).2.2.2
            · rcases List.mem_singleton.mp hc with hc
              subst hc
              decide
  case hne0 =>
    intro hc
    exact List.noConfusion (List.append_eq_nil.mp hc).2


/-! ## Stage B: the header split and the per-line protection -/

theorem splitCharL_no_sep (sep : Char) : ∀ (A : List Char), (∀ c ∈ A, c ≠ sep) →
    splitCharL sep A = [A] := by
  intro A
  induction A with
  | nil => intro _; rfl
  | cons a t ih =>
    intro h
    simp only [splitCharL]
    rw [if_neg (h a (List.mem_cons_self a t)),
      ih (fun c hc => h c (List.mem_cons_of_mem _ hc))]

theorem splitCharL_two (sep : Char) (A B : List Char) (hA : ∀ c ∈ A, c ≠ sep)
    (hB : ∀ c ∈ B, c ≠ sep) : splitCharL sep (A ++ sep :: B) = [A, B] := by
  induction A with
  | nil =>
    rw [List.nil_append]
    simp only [splitCharL]
    rw [if_pos trivial, splitCharL_no_sep sep B hB]
  | cons a t ih =>
    rw [List.cons_append]
    simp only [splitCharL]
    rw [if_neg (hA a (List.mem_cons_self a t)),
      ih (fun c hc => hA c (List.mem_cons_of_mem _ hc))]

theorem headers_eval (kf sf : String) (hkf : goodName kf) (hsf : goodName sf) :
    (splitCharL ',' (kf.data ++ ',' :: sf.data)).map String.mk = [kf, sf] := by
  rw [splitCharL_two ',' kf.data sf.data (fun c hc => (hkf.2 c hc).1)
    (fun c hc => (hsf.2 c hc).1)]
  rfl

theorem findIdx_special (kf sf : String) (hne : kf ≠ sf) :
    ([kf, sf].findIdx? (· = sf)) = some 1 := by
  simp [List.findIdx?_cons, hne]

theorem qsGo_plain (delim : Char) (hdq : delim ≠ dquote) (hds : delim ≠ squote) :
    ∀ (A : List Char), (∀ c ∈ A, c ≠ dquote ∧ c ≠ squote ∧ c ≠ delim) →
    ∀ parts cur qc r, qsGo delim parts cur false qc (A ++ r) =
      qsGo delim parts (cur ++ A) false qc r := by
  intro A
  induction A with
  | nil =>
    intro _ parts cur qc r
    rw [List.nil_append, List.append_nil]
  | cons a t ih =>
    intro h parts cur qc r
    obtain ⟨h1, h2, h3⟩ := h a (List.mem_cons_self a t)
    rw [List.cons_append]
    simp only [qsGo]
    rw [if_neg (not_or.mpr ⟨h1, h2⟩), if_neg (fun hc => h3 hc.1),
      ih (fun c hc => h c (List.mem_cons_of_mem _ hc)) parts (cur ++ [a]) qc r,
      List.append_assoc, List.singleton_append]

theorem qsGo_inq_plain (delim : Char) :
    ∀ (A : List Char), (∀ c ∈ A, c ≠ dquote ∧ c ≠ squote) →
    ∀ parts cur qc t, qsGo delim parts cur true qc (A ++ t) =
      qsGo delim parts (cur ++ A) true qc t := by
  intro A
  induction A with
  | nil =>
    intro _ parts cur qc t
    rw [List.nil_append, List.append_nil]
  | cons a t2 ih =>
    intro h parts cur qc t
    obtain ⟨h1, h2⟩ := h a (List.mem_cons_self a t2)
    rw [List.cons_append]
    simp only [qsGo]
    rw [if_neg (not_or.mpr ⟨h1, h2⟩), if_neg (fun hc => absurd hc.2 (by decide)),
      ih (fun c hc => h c (List.mem_cons_of_mem _ hc)) parts (cur ++ [a]) qc t,
      List.append_assoc, List.singleton_append]

theorem qsGo_delim (delim : Char) (hdq : delim ≠ dquote) (hds : delim ≠ squote)
    (parts : List (List Char)) (cur : List Char) (qc : Char) (t : List Char) :
    qsGo delim parts cur false qc (delim :: t) = qsGo delim (parts ++ [cur]) [] false qc t := by
  simp only [qsGo]
  rw [if_neg (not_or.mpr ⟨hdq, hds⟩)]
  simp

theorem qsGo_open (delim : Char) (parts : List (List Char)) (cur : List Char)
    (qc : Char) (t : List Char) :
    qsGo delim parts cur false qc (dquote :: t) =
      qsGo delim parts (cur ++ [dquote]) true dquote t := by
  simp only [qsGo]
  simp

theorem qsGo_close (delim : Char) (parts : List (List Char)) (cur : List Char) (t : List Char) :
    qsGo delim parts cur true dquote (dquote :: t) =
      qsGo delim parts (cur ++ [dquote]) false dquote t := by
  simp only [qsGo]
  simp

theorem qsGo_end (delim : Char) (parts : List (List Char)) (cur : List Char)
    (inQ : Bool) (qc : Char) : qsGo delim parts cur inQ qc [] = parts ++ [cur] := rfl

theorem quoteSplit_rowBody (k v : List Char) (hk : ∀ c ∈ k, c ≠ dquote ∧ c ≠ squote ∧ c ≠ ',')
    (hv : ∀ c ∈ v, c ≠ dquote ∧ c ≠ squote) :
    quoteSplitL ',' (k ++ ',' :: '"' :: (v ++ ['"'])) = [k, '"' :: (v ++ ['"'])] := by
  rw [quoteSplitL, qsGo_plain ',' (by decide) (by decide) k hk,
    qsGo_delim ',' (by decide) (by decide),
    show ('"' : Char) = dquote from rfl,
    qsGo_open ',', qsGo_inq_plain ',' v hv, qsGo_close ',', qsGo_end ',']
  simp

theorem strip_quoted (v : List Char) : stripOuterQuotesL ('"' :: (v ++ ['"'])) = v := by
  rw [stripOuterQuotesL, if_pos (Or.inl ⟨rfl, by
    rw [show ('"' :: (v ++ ['"']) : List Char) = ('"' :: v) ++ ['"'] from by rw [List.cons_append],
      List.getLast?_concat]
    rfl⟩)]
  simp [List.dropLast_concat]

theorem intercalate_two (d : Char) (A B : List Char) :
    List.intercalate [d] [A, B] = A ++ d :: B := by
  simp [List.intercalate, List.intersperse]

theorem replaceSpecial_rowBody (k v : List Char)
    (hk : ∀ c ∈ k, c ≠ dquote ∧ c ≠ squote ∧ c ≠ ',')
    (hv : ∀ c ∈ v, c ≠ dquote ∧ c ≠ squote) :
    replaceSpecialFieldsL ',' 1 (k ++ ',' :: '"' :: (v ++ ['"'])) =
      k ++ ',' :: protectL v := by
  simp only [replaceSpecialFieldsL]
  rw [quoteSplit_rowBody k v hk hv,
    if_pos ⟨by decide, by norm_num⟩]
  rw [show ((1 : Int).toNat) = 1 from rfl,
    show ([k, '"' :: (v ++ ['"'])].getD 1 [] : List Char) = '"' :: (v ++ ['"']) from rfl,
    strip_quoted v,
    show ([k, '"' :: (v ++ ['"'])].set 1 (protectL v) : List (List Char)) = [k, protectL v]
      from rfl,
    intercalate_two]


/-! ## Stage C: the csv reader on protected family lines -/

theorem break_free_ne (c : Char) (h : isLineBreak c = false) : c ≠ '\n' ∧ c ≠ '\r' := by
  constructor <;> intro hc <;> subst hc <;> exact absurd h (by decide)

theorem data_ne_nil (s : String) (h : s ≠ "") : s.data ≠ [] := by
  intro hc
  apply h
  cases s with
  | mk d =>
    cases hc
    rfl

/-- The protected value contains neither the delimiter comma, a line
feed, nor a double quote: its characters come from the placeholder
strings and from the surviving plain characters of the input. -/
theorem protect_chars : ∀ (n : Nat) (l : List Char), l.length ≤ n →
    (∀ c ∈ l, c ≠ dquote ∧ c ≠ squote ∧ isLineBreak c = false) →
    ∀ c ∈ protectL l, c ≠ ',' ∧ c ≠ '\n' ∧ c ≠ dquote := by
  intro n
  induction n with
  | zero =>
    intro l hl _
    have hnil : l = [] := List.eq_nil_of_length_eq_zero (Nat.le_zero.mp hl)
    subst hnil
    rw [protect_nil]
    intro c hc
    exact absurd hc (List.not_mem_nil c)
  | succ n ih =>
    intro l hl h
    cases l with
    | nil =>
      rw [protect_nil]
      intro c hc
      exact absurd hc (List.not_mem_nil c)
    | cons d t =>
      have hlen : t.length ≤ n := by
        simp only [List.length_cons] at hl
        omega
      have hmem : ∀ c ∈ t, c ≠ dquote ∧ c ≠ squote ∧ isLineBreak c = false :=
        fun c hc => h c (List.mem_cons_of_mem _ hc)
      have hd := h d (List.mem_cons_self d t)
      have hdn := break_free_ne d hd.2.2
      have hpc : ∀ c ∈ PLACEHOLDER_COMMA.data, c ≠ ',' ∧ c ≠ '\n' ∧ c ≠ dquote := by decide
      have hps : ∀ c ∈ PLACEHOLDER_SECTION.data, c ≠ ',' ∧ c ≠ '\n' ∧ c ≠ dquote := by decide
      by_cases h1 : d = ','
      · subst h1
        rw [protect_comma]
        intro c hc
        rcases List.mem_append.mp hc with hc | hc
        · exact hpc c hc
        · exact ih t hlen hmem c hc
      · by_cases h4 : d = 'Â'
        · subst h4
          cases t with
          | nil =>
            intro c hc
            have : c ∈ ['Â'] := by
              rw [show protectL ['Â'] = ['Â'] from by decide] at hc
              exact hc
            rw [List.mem_singleton] at this
            subst this
            exact ⟨by decide, by decide, by decide⟩
          | cons e t2 =>
            have hlen2 : t2.length ≤ n := by
              simp only [List.length_cons] at hl
              omega
            have hmem2 : ∀ c ∈ t2, c ≠ dquote ∧ c ≠ squote ∧ isLineBreak c = false :=
              fun c hc => hmem c (List.mem_cons_of_mem _ hc)
            by_cases h5 : e = '§'
            · subst h5
              rw [protect_sm]
              intro c hc
              rcases List.mem_append.mp hc with hc | hc
              · exact hps c hc
              · exact ih t2 hlen2 hmem2 c hc
            · rw [protect_A (e :: t2) (by intro t3 hc; injection hc with he _; exact h5 he)]
              intro c hc
              rcases List.mem_cons.mp hc with hc | hc
              · subst hc
                exact ⟨by decide, by decide, by decide⟩
              · exact ih (e :: t2) hlen hmem c hc
        · rw [protect_raw d t h1 hdn.1 hdn.2 h4]
          intro c hc
          rcases List.mem_cons.mp hc with hc | hc
          · subst hc
            exact ⟨h1, hdn.1, hd.1⟩
          · exact ih t hlen hmem c hc

theorem csv_scan_inField (delim : Char) : ∀ (A : List Char),
    (∀ c ∈ A, c ≠ '\n' ∧ c ≠ delim) → ∀ rows fields cur r,
    (A ++ r).foldl (csvStep delim) ⟨rows, fields, cur, .inField⟩ =
      r.foldl (csvStep delim) ⟨rows, fields, cur ++ A, .inField⟩ := by
  intro A
  induction A with
  | nil =>
    intro _ rows fields cur r
    rw [List.nil_append, List.append_nil]
  | cons c t ih =>
    intro h rows fields cur r
    obtain ⟨h1, h2⟩ := h c (List.mem_cons_self c t)
    rw [List.cons_append, List.foldl_cons]
    have hstep : csvStep delim ⟨rows, fields, cur, .inField⟩ c =
        ⟨rows, fields, cur ++ [c], .inField⟩ := by
      simp only [csvStep]
      rw [if_neg h1, if_neg h2]
    rw [hstep, ih (fun c2 hc2 => h c2 (List.mem_cons_of_mem _ hc2)) rows fields (cur ++ [c]) r,
      List.append_assoc, List.singleton_append]

theorem csv_field_start (delim : Char) (st : CsvState)
    (hst : st = CsvState.startRecord ∨ st = CsvState.startField) (c : Char)
    (hc1 : c ≠ '\n') (hc2 : c ≠ dquote) (hc3 : c ≠ delim)
    (rows : List (List String)) (fields : List String) :
    csvStep delim ⟨rows, fields, [], st⟩ c = ⟨rows, fields, [c], .inField⟩ := by
  rcases hst with h | h <;> subst h <;> simp only [csvStep] <;>
    rw [if_neg hc1, if_neg hc2, if_neg hc3]

theorem csv_line_tail (delim : Char) (A : List Char)
    (hA : ∀ c ∈ A, c ≠ '\n' ∧ c ≠ dquote ∧ c ≠ delim)
    (rows : List (List String)) (fields : List String) :
    csvEndLine (A.foldl (csvStep delim) ⟨rows, fields, [], .startField⟩) =
      ⟨rows ++ [fields ++ [String.mk A]], [], [], .startRecord⟩ := by
  cases A with
  | nil => rfl
  | cons c t =>
    obtain ⟨h1, h2, h3⟩ := hA c (List.mem_cons_self c t)
    rw [List.foldl_cons, csv_field_start delim .startField (Or.inr rfl) c h1 h2 h3]
    have hscan := csv_scan_inField delim t
      (fun c2 hc2 => ⟨(hA c2 (List.mem_cons_of_mem _ hc2)).1,
        (hA c2 (List.mem_cons_of_mem _ hc2)).2.2⟩) rows fields [c] []
    rw [List.append_nil] at hscan
    rw [hscan]
    rfl

theorem csv_line (delim : Char) (hdnl : delim ≠ '\n') (K A : List Char) (hK : K ≠ [])
    (hKp : ∀ c ∈ K, c ≠ '\n' ∧ c ≠ dquote ∧ c ≠ delim)
    (hAp : ∀ c ∈ A, c ≠ '\n' ∧ c ≠ dquote ∧ c ≠ delim) (rows : List (List String)) :
    csvEndLine ((K ++ delim :: A).foldl (csvStep delim) ⟨rows, [], [], .startRecord⟩) =
      ⟨rows ++ [[String.mk K, String.mk A]], [], [], .startRecord⟩ := by
  cases K with
  | nil => exact absurd rfl hK
  | cons c t =>
    obtain ⟨h1, h2, h3⟩ := hKp c (List.mem_cons_self c t)
    rw [List.cons_append, List.foldl_cons,
      csv_field_start delim .startRecord (Or.inl rfl) c h1 h2 h3,
      csv_scan_inField delim t
        (fun c2 hc2 => ⟨(hKp c2 (List.mem_cons_of_mem _ hc2)).1,
          (hKp c2 (List.mem_cons_of_mem _ hc2)).2.2⟩) rows [] [c] (delim :: A),
      List.foldl_cons]
    have hstep : csvStep delim ⟨rows, [], [c] ++ t, .inField⟩ delim =
        ⟨rows, [String.mk (c :: t)], [], .startField⟩ := by
      simp only [csvStep]
      rw [if_neg hdnl]
      simp
    rw [hstep, csv_line_tail delim A hAp rows [String.mk (c :: t)]]
    rfl


/-! ## Stage C continued: all records of the document -/

theorem csv_fold_rows (ps : List (String × String))
    (h : ∀ p ∈ ps, goodKey p.1 ∧ goodVal p.2) : ∀ R : List (List String),
    (ps.map (fun p => String.mk (p.1.data ++ ',' :: protectL p.2.data))).foldl
        (fun a line => csvEndLine (line.data.foldl (csvStep ',') a)) ⟨R, [], [], .startRecord⟩ =
      ⟨R ++ ps.map (fun p => [p.1, String.mk (protectL p.2.data)]), [], [], .startRecord⟩ := by
  induction ps with
  | nil =>
    intro R
    simp
  | cons p ps2 ih =>
    intro R
    obtain ⟨hkey, hval⟩ := h p (List.mem_cons_self p ps2)
    rw [List.map_cons, List.foldl_cons]
    have hline := csv_line ',' (by decide) p.1.data (protectL p.2.data)
      (data_ne_nil p.1 hkey.1.1)
      (fun c hc => ⟨(break_free_ne c (hkey.1.2 c hc).2.2.2).1,
        (hkey.1.2 c hc).2.1, (hkey.1.2 c hc).1⟩)
      (fun c hc =>
        have z := protect_chars p.2.data.length p.2.data le_rfl
          (fun c2 hc2 => ⟨(hval c2 hc2).1, (hval c2 hc2).2.1, (hval c2 hc2).2.2.2⟩) c hc
        ⟨z.2.1, z.2.2, z.1⟩)
      R
    rw [show (String.mk (p.1.data ++ ',' :: protectL p.2.data)).data =
        p.1.data ++ ',' :: protectL p.2.data from rfl, hline,
      show String.mk p.1.data = p.1 from rfl,
      ih (fun q hq => h q (List.mem_cons_of_mem _ hq)) (R ++ [[p.1, String.mk (protectL p.2.data)]]),
      List.append_assoc, List.singleton_append, List.map_cons]

theorem csvRows_doc (kf sf : String) (rows : List (String × String))
    (hkf : goodName kf) (hsf : goodName sf)
    (hrows : ∀ p ∈ rows, goodKey p.1 ∧ goodVal p.2) :
    csvRows ',' (String.mk (kf.data ++ ',' :: sf.data) ::
        rows.map (fun p => String.mk (p.1.data ++ ',' :: protectL p.2.data))) =
      [kf, sf] :: rows.map (fun p => [p.1, String.mk (protectL p.2.data)]) := by
  simp only [csvRows, List.foldl_cons]
  have hheader : csvEndLine ((String.mk (kf.data ++ ',' :: sf.data)).data.foldl
      (csvStep ',') csvInit) = ⟨[[kf, sf]], [], [], .startRecord⟩ := by
    rw [show (String.mk (kf.data ++ ',' :: sf.data)).data = kf.data ++ ',' :: sf.data from rfl,
      show csvInit = (⟨[], [], [], CsvState.startRecord⟩ : CsvAcc) from rfl,
      csv_line ',' (by decide) kf.data sf.data (data_ne_nil kf hkf.1)
        (fun c hc => ⟨(break_free_ne c (hkf.2 c hc).2.2.2).1,
          (hkf.2 c hc).2.1, (hkf.2 c hc).1⟩)
        (fun c hc => ⟨(break_free_ne c (hsf.2 c hc).2.2.2).1,
          (hsf.2 c hc).2.1, (hsf.2 c hc).1⟩) []]
    rfl
  rw [hheader, csv_fold_rows rows hrows [[kf, sf]]]
  rfl

theorem mkLRecord_two (kf sf k y : String) (hne : kf ≠ sf) :
    mkLRecord [kf, sf] [k, y] = ⟨[(kf, some k), (sf, some y)], []⟩ := by
  simp [mkLRecord, PyDict.insert, hne]

theorem dictReader_doc (kf sf : String) (rows : List (String × String))
    (hne : kf ≠ sf) (hkf : goodName kf) (hsf : goodName sf)
    (hrows : ∀ p ∈ rows, goodKey p.1 ∧ goodVal p.2) :
    dictReaderRows ',' (String.mk (kf.data ++ ',' :: sf.data) ::
        rows.map (fun p => String.mk (p.1.data ++ ',' :: protectL p.2.data))) =
      rows.map (fun p =>
        ⟨[(kf, some p.1), (sf, some (String.mk (protectL p.2.data)))], []⟩) := by
  simp only [dictReaderRows, csvRows_doc kf sf rows hkf hsf hrows]
  have hfilter : (rows.map (fun p => [p.1, String.mk (protectL p.2.data)])).filter (· ≠ []) =
      rows.map (fun p => [p.1, String.mk (protectL p.2.data)]) := by
    rw [List.filter_eq_self]
    intro x hx
    rcases List.mem_map.mp hx with ⟨p, _, hpe⟩
    subst hpe
    simp
  rw [hfilter, List.map_map]
  apply List.map_congr_left
  intro p hp
  exact mkLRecord_two kf sf p.1 (String.mk (protectL p.2.data)) hne


/-! ## Stage E: the final fold of load_csv on family records -/

theorem protect_cons_ne_nil (d : Char) (t : List Char) : protectL (d :: t) ≠ [] := by
  by_cases h1 : d = ','
  · subst h1
    rw [protect_comma]
    intro hc
    exact absurd (List.append_eq_nil.mp hc).1 (by decide)
  · by_cases h2 : d = '\n'
    · subst h2
      rw [protect_nl]
      intro hc
      exact absurd (List.append_eq_nil.mp hc).1 (by decide)
    · by_cases h3 : d = '\r'
      · subst h3
        rw [protect_cr]
        intro hc
        exact absurd (List.append_eq_nil.mp hc).1 (by decide)
      · by_cases h4 : d = 'Â'
        · subst h4
          cases t with
          | nil => decide
          | cons e t2 =>
            by_cases h5 : e = '§'
            · subst h5
              rw [protect_sm]
              intro hc
              exact absurd (List.append_eq_nil.mp hc).1 (by decide)
            · rw [protect_A (e :: t2) (by intro t3 hc; injection hc with he _; exact h5 he)]
              simp
        · rw [protect_raw d t h1 h2 h3 h4]
          simp

/-- The final fold of load_csv, abstracted over the step function: on
family records the step stores each row under its own key, so the fold
appends one binding per row in order. -/
theorem load_fold_doc (kf sf : String)
    (step : PyDict LRecord → LRecord → PyDict LRecord)
    (hstep : ∀ (d : PyDict LRecord) (p : String × String), p.1 ≠ "" → pyStrip p.1 = p.1 →
      restoreSpecialL (protectL p.2.data) = p.2.data →
      step d ⟨[(kf, some p.1), (sf, some (String.mk (protectL p.2.data)))], []⟩ =
        PyDict.insert d p.1 ⟨[(kf, some p.1), (sf, some p.2)], []⟩) :
    ∀ (ps : List (String × String)), (∀ p ∈ ps, goodKey p.1 ∧ goodVal p.2) →
      (ps.map Prod.fst).Nodup →
      ∀ (init : PyDict LRecord), (∀ p ∈ ps, p.1 ∉ PyDict.keys init) →
      (ps.map (fun p =>
          (⟨[(kf, some p.1), (sf, some (String.mk (protectL p.2.data)))], []⟩ : LRecord))).foldl
        step init =
      init ++ ps.map (fun p => (p.1, (⟨[(kf, some p.1), (sf, some p.2)], []⟩ : LRecord))) := by
  intro ps
  induction ps with
  | nil =>
    intro _ _ init _
    simp
  | cons p ps2 ih =>
    intro h hnd init hfresh
    obtain ⟨hkey, hval⟩ := h p (List.mem_cons_self p ps2)
    have hrest : restoreSpecialL (protectL p.2.data) = p.2.data :=
      restore_protect p.2.data.length p.2.data le_rfl
        (fun c hc => ⟨(hval c hc).2.2.1, (break_free_ne c (hval c hc).2.2.2).2⟩)
    rw [List.map_cons, List.foldl_cons, hstep init p hkey.1.1 hkey.2 hrest,
      PyDict.insert_fresh _ (hfresh p (List.mem_cons_self p ps2))]
    rw [List.map_cons] at hnd
    have hnd2 := (List.nodup_cons.mp hnd).2
    have hne1 := (List.nodup_cons.mp hnd).1
    rw [ih (fun q hq => h q (List.mem_cons_of_mem _ hq)) hnd2
      (init ++ [(p.1, (⟨[(kf, some p.1), (sf, some p.2)], []⟩ : LRecord))]) ?_,
      List.append_assoc, List.singleton_append, List.map_cons]
    intro q hq
    have hq0 := hfresh q (List.mem_cons_of_mem _ hq)
    simp only [PyDict.keys, List.map_append, List.mem_append, List.map_cons, List.map_nil,
      List.mem_singleton] at hq0 ⊢
    push_neg
    exact ⟨hq0, fun hc => hne1 (hc ▸ List.mem_map_of_mem Prod.fst hq)⟩


/-- C1 amended: on family documents (distinct quote-free, comma-free,
break-free column names; trimmed non-empty duplicate-free keys; special
values free of quote characters, line breaks and the placeholder
opener, but with commas and section markers allowed), load_csv
round-trips: each row is stored under its key with exactly the header
fields, and the special value equals the original literal. -/
theorem load_csv_roundtrip_family (kf sf : String) (rows : List (String × String))
    (hkf : goodName kf) (hsf : goodName sf) (hne : kf ≠ sf)
    (hrows : ∀ p ∈ rows, goodKey p.1 ∧ goodVal p.2)
    (hnd : (rows.map Prod.fst).Nodup) :
    load_csv (mkDoc kf sf rows) ',' sf kf =
      rows.map (fun p => (p.1, (⟨[(kf, some p.1), (sf, some p.2)], []⟩ : LRecord))) := by
  have hsplit := pySplitlines_mkDoc kf sf rows hkf hsf hrows
  have hheaders : (splitCharL ',' (String.mk (kf.data ++ ',' :: sf.data)).data).map String.mk
      = [kf, sf] := by
    rw [show (String.mk (kf.data ++ ',' :: sf.data)).data = kf.data ++ ',' :: sf.data from rfl]
    exact headers_eval kf sf hkf hsf
  simp only [load_csv, hsplit, hheaders, findIdx_special kf sf hne]
  have hproc : ∀ p ∈ rows,
      String.mk (replaceSpecialFieldsL ',' ((1 : Nat) : Int) (String.mk (rowBody p)).data) =
        String.mk (p.1.data ++ ',' :: protectL p.2.data) := by
    intro p hp
    obtain ⟨hkey, hval⟩ := hrows p hp
    show String.mk (replaceSpecialFieldsL ',' 1 (rowBody p)) = _
    rw [show rowBody p = p.1.data ++ ',' :: '"' :: (p.2.data ++ ['"']) from rfl,
      replaceSpecial_rowBody p.1.data p.2.data
        (fun c hc => ⟨(hkey.1.2 c hc).2.1, (hkey.1.2 c hc).2.2.1, (hkey.1.2 c hc).1⟩)
        (fun c hc => ⟨(hval c hc).1, (hval c hc).2.1⟩)]
  have hproc2 : (rows.map (fun p => String.mk (rowBody p))).map
      (fun line => String.mk (replaceSpecialFieldsL ',' ((1 : Nat) : Int) line.data)) =
      rows.map (fun p => String.mk (p.1.data ++ ',' :: protectL p.2.data)) := by
    rw [List.map_map]
    exact List.map_congr_left (fun p hp => hproc p hp)
  rw [hproc2, dictReader_doc kf sf rows hne hkf hsf hrows]
  refine Eq.trans (load_fold_doc kf sf _ ?_ rows hrows hnd [] ?_) (List.nil_append _)
  · intro d p h1 h2 h3
    have hgk : PyDict.get? ([(kf, some p.1),
        (sf, some (String.mk (protectL p.2.data)))] : PyDict (Option String)) kf =
        some (some p.1) := by
      simp [PyDict.get?]
    have hgs : PyDict.get? ([(kf, some p.1),
        (sf, some (String.mk (protectL p.2.data)))] : PyDict (Option String)) sf =
        some (some (String.mk (protectL p.2.data))) := by
      simp [PyDict.get?, hne]
    simp only [hgk, hgs]
    rw [if_neg h1, h2]
    by_cases hY0 : String.mk (protectL p.2.data) = ""
    · have hpl : protectL p.2.data = [] := congrArg String.data hY0
      have hd2 : p.2.data = [] := by
        cases hd : p.2.data with
        | nil => rfl
        | cons e t =>
          rw [hd] at hpl
          exact absurd hpl (protect_cons_ne_nil e t)
      have hp2 : p.2 = "" := congrArg String.mk hd2
      rw [if_pos hY0, hp2]
      rfl
    · have hins : PyDict.insert ([(kf, some p.1),
          (sf, some (String.mk (protectL p.2.data)))] : PyDict (Option String)) sf
          (some p.2) = [(kf, some p.1), (sf, some p.2)] := by
        simp [PyDict.insert, hne]
      rw [if_neg hY0, h3, show String.mk p.2.data = p.2 from rfl, hins]
  · intro p hp
    simp [PyDict.keys]


/-- Witness for the C1 family theorem: a concrete two-row document
whose special values contain a comma and the section-marker sequence;
both survive the round trip. -/
theorem load_csv_roundtrip_family_witness :
    load_csv (mkDoc "sku" "aa" [("A", "x,y"), ("B", "mÂ§n")]) ',' "aa" "sku" =
      [("A", (⟨[("sku", some "A"), ("aa", some "x,y")], []⟩ : LRecord)),
       ("B", (⟨[("sku", some "B"), ("aa", some "mÂ§n")], []⟩ : LRecord))] :=
  (load_csv_roundtrip_family "sku" "aa" [("A", "x,y"), ("B", "mÂ§n")]
    (by decide) (by decide) (by decide) (by decide) (by decide)).trans (by decide)

end CatalogComparer
